import Mathlib

set_option autoImplicit false

/-!
Shallow embedding of the cross-stitch pattern-generation core:
color quantization (median cut), DMC color matching, grid mapping,
symbol assignment and the pattern store operations, together with
theorems settling the specification claims.

Conventions of the embedding:
* JS numbers holding 8-bit channel values are modelled as `Nat`;
  arithmetic that subtracts (distance computations, box volumes) casts
  to `Int` exactly where the source subtracts.
* `ImageData.data` (a flat RGBA byte array whose length is a multiple
  of 4) is modelled as a `List Pixel` where `Pixel` is one 4-byte
  RGBA group.
* JS `Map` caches keyed by the string `"r,g,b"` are modelled as
  association lists keyed by the `RGBColor` triple itself (the string
  key is injective in the triple).
* Fallible code paths (a thrown `Error`, or a `TypeError` from
  property access on `undefined`) are modelled with `Except String` /
  `Option`.
* `deltaE2000` converts through the external chroma-js Lab conversion
  and is therefore modelled as an abstract distance parameter
  `dist : RGBColor → RGBColor → ℚ`; the theorems that depend on it
  state the exact properties the real function has (reflexivity at
  zero, nonnegativity, factoring through the Lab projection).
-/

namespace CrossStitch

/-- RGB color value (src/types/color.ts `RGBColor`), one byte per channel. -/
structure RGBColor where
  r : Nat
  g : Nat
  b : Nat
  deriving DecidableEq, Inhabited

/-- One RGBA group of the flat `ImageData.data` byte array. -/
structure Pixel where
  r : Nat
  g : Nat
  b : Nat
  a : Nat
  deriving DecidableEq, Inhabited

/-- `ImageData`: width, height and the RGBA pixel data. -/
structure Image where
  width : Nat
  height : Nat
  data : List Pixel
  deriving DecidableEq, Inhabited

/-- DMC thread record (src/types/dmc.ts `DMCThread`).  The optional
`symbol` field is modelled as a `String` where `""` stands for
`undefined` (the source only ever tests it for truthiness, and JS
treats both `undefined` and `""` as falsy). -/
structure DMCThread where
  code : String
  name : String
  hex : String
  rgb : RGBColor
  symbol : String
  deriving DecidableEq, Inhabited

/-- Squared Euclidean RGB distance, the `dr*dr + dg*dg + db*db`
computation used by the grid mapper's `findClosestDMC` and by
`applyQuantizedColors` (colorQuantization.ts). -/
def distanceSq (c1 c2 : RGBColor) : Int :=
  ((c1.r : Int) - c2.r) * ((c1.r : Int) - c2.r) +
    ((c1.g : Int) - c2.g) * ((c1.g : Int) - c2.g) +
    ((c1.b : Int) - c2.b) * ((c1.b : Int) - c2.b)

/-- `batchDistance` (colorDistance.ts): distances from one source color
to each target color, in target order. -/
def batchDistance (sourceColor : RGBColor) (targetColors : List RGBColor)
    (dist : RGBColor → RGBColor → ℚ) : List ℚ :=
  targetColors.map (dist sourceColor)

/-- The scanning loop of `findClosestColorIndex` (colorDistance.ts):
walks the distance list keeping the least distance and its index.
`none` as the current minimum models the initial `Infinity` (every
finite distance compares below it). `i` is the index of the next list
element. -/
def minFold : List ℚ → Option ℚ × Nat → Nat → Option ℚ × Nat
  | [], s, _ => s
  | x :: rest, (cur, best), i =>
    match cur with
    | none => minFold rest (some x, i) (i + 1)
    | some m =>
      if x < m then minFold rest (some x, i) (i + 1)
      else minFold rest (some m, best) (i + 1)

/-- `findClosestColorIndex` (colorDistance.ts): index of the first
target color at minimal distance; `0` on an empty target list. -/
def findClosestColorIndex (sourceColor : RGBColor) (targetColors : List RGBColor)
    (dist : RGBColor → RGBColor → ℚ) : Nat :=
  (minFold (batchDistance sourceColor targetColors dist) (none, 0) 0).2

/-- Association-list model of the JS `Map` caches keyed by the string
`"r,g,b"` (the key is injective in the RGB triple, so the triple
itself is used as the key).  `none` = key absent, `some v` = key
present with stored value `v`. -/
def assocLookup {α : Type} : List (RGBColor × α) → RGBColor → Option α
  | [], _ => none
  | (k, v) :: rest, key => if k = key then some v else assocLookup rest key

/-- The module-level match cache of colorMatcher.ts (`matchCache`):
entries map an exact RGB triple to the thread stored for it.  A stored
`none` models a JS `undefined` value in the map (possible only for an
empty catalog); the source treats such an entry as a miss because of
its truthiness test. -/
abbrev MCache : Type := List (RGBColor × Option DMCThread)

/-- The uncached body of `matchColorToDMC` (colorMatcher.ts): index the
catalog at the closest-color index.  `none` models the `undefined`
produced by indexing an empty catalog. -/
def matchCore (catalog : List DMCThread) (dist : RGBColor → RGBColor → ℚ)
    (color : RGBColor) : Option DMCThread :=
  catalog.get? (findClosestColorIndex color (catalog.map DMCThread.rgb) dist)

/-- `matchColorToDMC` (colorMatcher.ts) with its cache threaded
explicitly.  The cached value is returned only when it is truthy
(`if (cached)`), mirroring the source. -/
def matchColorToDMC (catalog : List DMCThread) (dist : RGBColor → RGBColor → ℚ)
    (color : RGBColor) (cache : MCache) (useCache : Bool) :
    Option DMCThread × MCache :=
  if useCache then
    match assocLookup cache color with
    | some (some t) => (some t, cache)
    | _ =>
      let matched := matchCore catalog dist color
      (matched, (color, matched) :: cache)
  else (matchCore catalog dist color, cache)

/-- `matchColorsToDMC` (colorMatcher.ts): match a list of colors,
threading the shared cache left to right. -/
def matchColorsToDMC (catalog : List DMCThread) (dist : RGBColor → RGBColor → ℚ) :
    List RGBColor → MCache → List (Option DMCThread) × MCache
  | [], cache => ([], cache)
  | c :: rest, cache =>
    let step := matchColorToDMC catalog dist c cache true
    let next := matchColorsToDMC catalog dist rest step.2
    (step.1 :: next.1, next.2)

/-- Validity of the match cache: every stored value is what the
uncached computation would produce for its key.  This holds for the
empty cache and is preserved by every call. -/
def MCacheValid (catalog : List DMCThread) (dist : RGBColor → RGBColor → ℚ)
    (cache : MCache) : Prop :=
  ∀ p ∈ cache, p.2 = matchCore catalog dist p.1

/-! ## Symbol data and assignment (data/symbols.ts, symbolAssigner.ts) -/

/-- `BASIC_SYMBOLS` (data/symbols.ts). -/
def BASIC_SYMBOLS : List String :=
  ["●", "■", "▲", "♦", "★", "+", "×", "○", "□", "△"]

/-- `LETTER_SYMBOLS` (data/symbols.ts). -/
def LETTER_SYMBOLS : List String :=
  ["A", "B", "C", "D", "E", "F", "G", "H", "I", "J",
   "K", "L", "M", "N", "O", "P", "Q", "R", "S", "T",
   "U", "V", "W", "X", "Y", "Z"]

/-- `NUMBER_SYMBOLS` (data/symbols.ts). -/
def NUMBER_SYMBOLS : List String :=
  ["0", "1", "2", "3", "4", "5", "6", "7", "8", "9"]

/-- `EXTENDED_SYMBOLS` (data/symbols.ts). -/
def EXTENDED_SYMBOLS : List String :=
  ["◆", "▼", "◀", "▶", "☆", "⬟", "◯", "▪", "▴", "⬢",
   "⊕", "⊗", "⊙", "◐", "◑"]

/-- `getAllSymbols` (data/symbols.ts): the full ordered symbol table. -/
def getAllSymbols : List String :=
  BASIC_SYMBOLS ++ LETTER_SYMBOLS ++ NUMBER_SYMBOLS ++ EXTENDED_SYMBOLS

/-- `getSymbolCount` (data/symbols.ts). -/
def getSymbolCount : Nat := getAllSymbols.length

/-- `assignSymbolsToPalette` (symbolAssigner.ts): entry `i` receives
`symbols[i % symbols.length]`. -/
def assignSymbolsToPalette (palette : List DMCThread) : List DMCThread :=
  palette.mapIdx fun index color =>
    { color with symbol := getAllSymbols.getD (index % getAllSymbols.length) "" }

/-! ## Properties of the minimum-scanning loop -/

/-- Characterization of `minFold` once a current minimum `m` (held at
index `b`, with `b ≤ i`) is present: the loop returns the least value
of `m` and the remaining list together with the index of its first
occurrence, scanning indices `i, i+1, …`. -/
theorem minFold_spec :
    ∀ (l : List ℚ) (m : ℚ) (b i : Nat), b ≤ i →
    ∃ m' b', minFold l (some m, b) i = (some m', b') ∧
      ((m' = m ∧ b' = b) ∨
        (∃ j, ∃ hj : j < l.length, b' = i + j ∧ m' = l[j] ∧ m' < m)) ∧
      (∀ j (hj : j < l.length), m' ≤ l[j]) ∧
      (∀ j (hj : j < l.length), i + j < b' → m' < l[j]) := by
  intro l
  induction l with
  | nil =>
    intro m b i hbi
    refine ⟨m, b, rfl, Or.inl ⟨rfl, rfl⟩, ?_, ?_⟩ <;> intro j hj <;> exact absurd hj (by simp)
  | cons x rest ih =>
    intro m b i hbi
    by_cases hx : x < m
    · simp only [minFold, hx, if_pos]
      obtain ⟨m', b', heq, hcase, hmin, hfirst⟩ := ih x i (i + 1) (Nat.le_succ i)
      refine ⟨m', b', heq, ?_, ?_, ?_⟩
      · rcases hcase with ⟨hm, hb⟩ | ⟨j, hj, hb, hv, hlt⟩
        · exact Or.inr ⟨0, by simp, by omega, by simp [hm], by simp [hm, hx]⟩
        · exact Or.inr ⟨j + 1, by simpa using Nat.succ_lt_succ hj,
            by omega, by simpa using hv, lt_trans hlt hx⟩
      · intro j hj
        match j with
        | 0 =>
          rcases hcase with ⟨hm, _⟩ | ⟨_, _, _, _, hlt⟩
          · simp [hm]
          · simpa using le_of_lt hlt
        | j + 1 => simpa using hmin j (by simpa using Nat.lt_of_succ_lt_succ hj)
      · intro j hj hjb
        match j with
        | 0 =>
          rcases hcase with ⟨_, hb⟩ | ⟨j', hj', hb, hv, hlt⟩
          · omega
          · simpa using hlt
        | j + 1 =>
          have := hfirst j (by simpa using Nat.lt_of_succ_lt_succ hj) (by omega)
          simpa using this
    · simp only [minFold, hx, if_neg, if_false]
      obtain ⟨m', b', heq, hcase, hmin, hfirst⟩ := ih m b (i + 1) (Nat.le_succ_of_le hbi)
      refine ⟨m', b', heq, ?_, ?_, ?_⟩
      · rcases hcase with ⟨hm, hb⟩ | ⟨j, hj, hb, hv, hlt⟩
        · exact Or.inl ⟨hm, hb⟩
        · exact Or.inr ⟨j + 1, by simpa using Nat.succ_lt_succ hj,
            by omega, by simpa using hv, hlt⟩
      · intro j hj
        match j with
        | 0 =>
          have hm'm : m' ≤ m := by
            rcases hcase with ⟨hm, _⟩ | ⟨_, _, _, _, hlt⟩
            · exact le_of_eq hm
            · exact le_of_lt hlt
          simpa using le_trans hm'm (not_lt.mp hx)
        | j + 1 => simpa using hmin j (by simpa using Nat.lt_of_succ_lt_succ hj)
      · intro j hj hjb
        match j with
        | 0 =>
          rcases hcase with ⟨_, hb⟩ | ⟨j', hj', hb, hv, hlt⟩
          · omega
          · simpa using lt_of_lt_of_le hlt (not_lt.mp hx)
        | j + 1 =>
          have := hfirst j (by simpa using Nat.lt_of_succ_lt_succ hj) (by omega)
          simpa using this

/-- The index returned by `findClosestColorIndex` on a nonempty target
list is in range, attains the minimal distance, and is the first index
to do so.  Stated with `getD` to keep the indexing proof-free. -/
theorem findClosestColorIndex_spec (src : RGBColor) (targets : List RGBColor)
    (dist : RGBColor → RGBColor → ℚ) (hne : targets ≠ []) :
    findClosestColorIndex src targets dist < targets.length ∧
      (∀ j, j < targets.length →
        dist src (targets.getD (findClosestColorIndex src targets dist) default) ≤
          dist src (targets.getD j default)) ∧
      (∀ j, j < targets.length → j < findClosestColorIndex src targets dist →
        dist src (targets.getD (findClosestColorIndex src targets dist) default) <
          dist src (targets.getD j default)) := by
  match targets with
  | [] => exact absurd rfl hne
  | t :: ts =>
    obtain ⟨m', b', heq, hcase, hmin, hfirst⟩ :=
      minFold_spec (ts.map (dist src)) (dist src t) 0 1 (Nat.zero_le 1)
    have hval : findClosestColorIndex src (t :: ts) dist = b' := by
      simp only [findClosestColorIndex, batchDistance, List.map_cons, minFold, heq]
    have hb'lt : b' < (t :: ts).length := by
      rcases hcase with ⟨_, hb⟩ | ⟨j, hj, hb, _, _⟩
      · simp [hb]
      · simp only [List.length_map] at hj
        simp only [List.length_cons]
        omega
    have hvalat : m' = dist src ((t :: ts).getD b' default) := by
      rcases hcase with ⟨hm, hb⟩ | ⟨j, hj, hb, hv, _⟩
      · subst hb; simpa using hm
      · subst hb
        have hj' : j < ts.length := by simpa using hj
        have h1j : 1 + j = j + 1 := Nat.add_comm 1 j
        rw [hv, h1j, List.getD_eq_getElem _ _ (by simpa using Nat.succ_lt_succ hj')]
        simp
    rw [hval]
    refine ⟨hb'lt, ?_, ?_⟩
    · intro j hj
      match j with
      | 0 =>
        rcases hcase with ⟨hm, _⟩ | ⟨_, _, _, _, hlt⟩
        · rw [← hvalat, hm]; simp [List.getD]
        · rw [← hvalat]
          simpa [List.getD] using le_of_lt hlt
      | j + 1 =>
        have hj' : j < (ts.map (dist src)).length := by
          simpa using Nat.lt_of_succ_lt_succ hj
        have := hmin j hj'
        rw [← hvalat, List.getD_eq_getElem _ _ hj]
        simp only [List.getElem_map] at this
        simpa using this
    · intro j hj hjb
      match j with
      | 0 =>
        rcases hcase with ⟨_, hb⟩ | ⟨j', hj', hb, hv, hlt⟩
        · omega
        · rw [← hvalat]
          simpa [List.getD] using hlt
      | j + 1 =>
        have hj' : j < (ts.map (dist src)).length := by
          simpa using Nat.lt_of_succ_lt_succ hj
        have := hfirst j hj' (by omega)
        rw [← hvalat, List.getD_eq_getElem _ _ hj]
        simp only [List.getElem_map] at this
        simpa using this

/-- Rational-valued squared RGB distance, used to instantiate the
abstract distance parameter in witnesses. -/
def sqDistQ (c1 c2 : RGBColor) : ℚ := ((distanceSq c1 c2 : Int) : ℚ)

theorem distanceSq_self (c : RGBColor) : distanceSq c c = 0 := by
  simp [distanceSq]

theorem distanceSq_nonneg (c1 c2 : RGBColor) : 0 ≤ distanceSq c1 c2 := by
  unfold distanceSq
  have h1 := mul_self_nonneg ((c1.r : Int) - c2.r)
  have h2 := mul_self_nonneg ((c1.g : Int) - c2.g)
  have h3 := mul_self_nonneg ((c1.b : Int) - c2.b)
  omega

theorem distanceSq_eq_zero {c1 c2 : RGBColor} (h : distanceSq c1 c2 = 0) :
    c1 = c2 := by
  cases c1 with
  | mk r1 g1 b1 =>
    cases c2 with
    | mk r2 g2 b2 =>
      unfold distanceSq at h
      simp only at h
      have h1 := mul_self_nonneg ((r1 : Int) - r2)
      have h2 := mul_self_nonneg ((g1 : Int) - g2)
      have h3 := mul_self_nonneg ((b1 : Int) - b2)
      have hr : ((r1 : Int) - r2) * ((r1 : Int) - r2) = 0 := by omega
      have hg : ((g1 : Int) - g2) * ((g1 : Int) - g2) = 0 := by omega
      have hb : ((b1 : Int) - b2) * ((b1 : Int) - b2) = 0 := by omega
      have hr' : (r1 : Int) = r2 := by
        have := mul_self_eq_zero.mp hr
        omega
      have hg' : (g1 : Int) = g2 := by
        have := mul_self_eq_zero.mp hg
        omega
      have hb' : (b1 : Int) = b2 := by
        have := mul_self_eq_zero.mp hb
        omega
      simp only [RGBColor.mk.injEq]
      exact ⟨Nat.cast_injective hr', Nat.cast_injective hg', Nat.cast_injective hb'⟩

/-- A cache lookup that returns a value found it among the entries. -/
theorem assocLookup_mem {α : Type} {cache : List (RGBColor × α)} {key : RGBColor}
    {v : α} (h : assocLookup cache key = some v) :
    (key, v) ∈ cache := by
  induction cache with
  | nil => exact absurd h (by simp [assocLookup])
  | cons p rest ih =>
    obtain ⟨k, w⟩ := p
    by_cases hk : k = key
    · simp only [assocLookup, hk, if_pos] at h
      subst hk
      obtain rfl : w = v := Option.some.inj h
      exact List.mem_cons_self _ _
    · simp only [assocLookup, hk, if_neg, if_false] at h
      exact List.mem_cons_of_mem _ (ih h)

/-- On a valid cache, the cached matcher agrees with the uncached
computation. -/
theorem matchColorToDMC_eq_core (catalog : List DMCThread)
    (dist : RGBColor → RGBColor → ℚ) (color : RGBColor) (cache : MCache)
    (useCache : Bool) (hvalid : MCacheValid catalog dist cache) :
    (matchColorToDMC catalog dist color cache useCache).1 =
      matchCore catalog dist color := by
  unfold matchColorToDMC
  cases useCache with
  | false => simp
  | true =>
    simp only [if_pos]
    cases hlook : assocLookup cache color with
    | none => simp
    | some v =>
      cases v with
      | none => simp
      | some t =>
        have := hvalid _ (assocLookup_mem hlook)
        simp only at this
        simp [← this]

/-- Every call leaves the match cache valid. -/
theorem matchColorToDMC_preserves_valid (catalog : List DMCThread)
    (dist : RGBColor → RGBColor → ℚ) (color : RGBColor) (cache : MCache)
    (useCache : Bool) (hvalid : MCacheValid catalog dist cache) :
    MCacheValid catalog dist (matchColorToDMC catalog dist color cache useCache).2 := by
  unfold matchColorToDMC
  cases useCache with
  | false => simpa using hvalid
  | true =>
    simp only [if_pos]
    cases hlook : assocLookup cache color with
    | none =>
      intro p hp
      rcases List.mem_cons.mp hp with hp | hp
      · subst hp; rfl
      · exact hvalid p hp
    | some v =>
      cases v with
      | none =>
        intro p hp
        rcases List.mem_cons.mp hp with hp | hp
        · subst hp; rfl
        · exact hvalid p hp
      | some t => simpa using hvalid

/-- The core matcher is idempotent: if it returns thread `t` for some
color, it returns `t` again for `t`'s own RGB triple.  Uses that the
distance vanishes on equal inputs, is nonnegative, and factors through
a projection (for `deltaE2000`, the Lab conversion): distance zero
between two colors makes them indistinguishable from every source. -/
theorem matchCore_idempotent (catalog : List DMCThread)
    (dist : RGBColor → RGBColor → ℚ)
    (H1 : ∀ c, dist c c = 0) (H2 : ∀ c1 c2, 0 ≤ dist c1 c2)
    (H3 : ∀ c1 c2, dist c1 c2 = 0 → ∀ z, dist z c1 = dist z c2)
    (color : RGBColor) (t : DMCThread)
    (hmatch : matchCore catalog dist color = some t) :
    matchCore catalog dist t.rgb = some t := by
  have hne : catalog ≠ [] := by
    intro h
    subst h
    exact absurd hmatch (by simp [matchCore])
  have htne : catalog.map DMCThread.rgb ≠ [] := by
    simpa using hne
  obtain ⟨hidx1, hmin1, hfirst1⟩ :=
    findClosestColorIndex_spec color (catalog.map DMCThread.rgb) dist htne
  obtain ⟨hidx2, hmin2, hfirst2⟩ :=
    findClosestColorIndex_spec t.rgb (catalog.map DMCThread.rgb) dist htne
  have hi1 : findClosestColorIndex color (catalog.map DMCThread.rgb) dist <
      catalog.length := by simpa using hidx1
  have hi2 : findClosestColorIndex t.rgb (catalog.map DMCThread.rgb) dist <
      catalog.length := by simpa using hidx2
  have ht : t = catalog.getD
      (findClosestColorIndex color (catalog.map DMCThread.rgb) dist) default := by
    have hcore : matchCore catalog dist color = some (catalog.getD
        (findClosestColorIndex color (catalog.map DMCThread.rgb) dist) default) := by
      unfold matchCore
      rw [List.getD_eq_getElem _ _ hi1]
      exact List.get?_eq_some.mpr ⟨hi1, rfl⟩
    rw [hcore] at hmatch
    exact (Option.some.inj hmatch).symm
  have htrgb : t.rgb = (catalog.map DMCThread.rgb).getD
      (findClosestColorIndex color (catalog.map DMCThread.rgb) dist) default := by
    rw [ht, List.getD_eq_getElem _ _ hi1, List.getD_eq_getElem _ _ hidx1]
    simp
  have hzero : dist t.rgb ((catalog.map DMCThread.rgb).getD
      (findClosestColorIndex color (catalog.map DMCThread.rgb) dist) default) = 0 := by
    rw [← htrgb]
    exact H1 t.rgb
  have hval2 : dist t.rgb ((catalog.map DMCThread.rgb).getD
      (findClosestColorIndex t.rgb (catalog.map DMCThread.rgb) dist) default) = 0 := by
    have hle := hmin2 _ hidx1
    rw [hzero] at hle
    exact le_antisymm hle (H2 _ _)
  have heq12 : findClosestColorIndex t.rgb (catalog.map DMCThread.rgb) dist =
      findClosestColorIndex color (catalog.map DMCThread.rgb) dist := by
    rcases Nat.lt_trichotomy (findClosestColorIndex t.rgb (catalog.map DMCThread.rgb) dist)
      (findClosestColorIndex color (catalog.map DMCThread.rgb) dist) with hlt | heq | hgt
    · exfalso
      have hfac : dist color ((catalog.map DMCThread.rgb).getD
          (findClosestColorIndex t.rgb (catalog.map DMCThread.rgb) dist) default) =
          dist color ((catalog.map DMCThread.rgb).getD
          (findClosestColorIndex color (catalog.map DMCThread.rgb) dist) default) :=
        (H3 _ _ hval2 color).symm.trans (congrArg (dist color) htrgb)
      have hstrict := hfirst1 _ hidx2 hlt
      exact lt_irrefl _ (lt_of_lt_of_eq hstrict hfac)
    · exact heq
    · exfalso
      have hstrict := hfirst2 _ hidx1 hgt
      rw [hzero, hval2] at hstrict
      exact lt_irrefl 0 hstrict
  unfold matchCore
  rw [heq12, List.get?_eq_some]
  exact ⟨hi1, by rw [ht, List.getD_eq_getElem _ default hi1]; simp⟩

/-- Two demo threads used to instantiate witness theorems. -/
def demoThreadA : DMCThread :=
  { code := "310", name := "Black", hex := "#000000", rgb := ⟨0, 0, 0⟩, symbol := "" }

/-- Second demo thread for witnesses. -/
def demoThreadB : DMCThread :=
  { code := "666", name := "Bright Red", hex := "#E31D42", rgb := ⟨227, 29, 66⟩, symbol := "" }

/-- Two-entry demo catalog for witnesses. -/
def demoCatalog : List DMCThread := [demoThreadA, demoThreadB]

/-- C7: `matchColorToDMC` is deterministic (any two calls on valid
caches agree) and idempotent (feeding the matched thread's RGB triple
back in returns the same thread).  The hypotheses are the properties
of the `deltaE2000` distance: it vanishes on equal inputs, is
nonnegative, and factors through the Lab projection, so two colors at
distance zero are equidistant from every source color. -/
theorem matchColorToDMC_deterministic_idempotent (catalog : List DMCThread)
    (dist : RGBColor → RGBColor → ℚ)
    (H1 : ∀ c, dist c c = 0) (H2 : ∀ c1 c2, 0 ≤ dist c1 c2)
    (H3 : ∀ c1 c2, dist c1 c2 = 0 → ∀ z, dist z c1 = dist z c2) :
    (∀ color cache1 cache2, MCacheValid catalog dist cache1 →
      MCacheValid catalog dist cache2 →
      (matchColorToDMC catalog dist color cache1 true).1 =
        (matchColorToDMC catalog dist color cache2 true).1)
    ∧ (∀ color cache1 cache2 t, MCacheValid catalog dist cache1 →
      MCacheValid catalog dist cache2 →
      (matchColorToDMC catalog dist color cache1 true).1 = some t →
      (matchColorToDMC catalog dist t.rgb cache2 true).1 = some t) := by
  constructor
  · intro color cache1 cache2 h1 h2
    rw [matchColorToDMC_eq_core catalog dist color cache1 true h1,
      matchColorToDMC_eq_core catalog dist color cache2 true h2]
  · intro color cache1 cache2 t h1 h2 hmatch
    rw [matchColorToDMC_eq_core catalog dist color cache1 true h1] at hmatch
    rw [matchColorToDMC_eq_core catalog dist t.rgb cache2 true h2]
    exact matchCore_idempotent catalog dist H1 H2 H3 color t hmatch

theorem sqDistQ_self (c : RGBColor) : sqDistQ c c = 0 := by
  simp [sqDistQ, distanceSq_self]

theorem sqDistQ_nonneg (c1 c2 : RGBColor) : 0 ≤ sqDistQ c1 c2 := by
  unfold sqDistQ
  exact_mod_cast distanceSq_nonneg c1 c2

theorem sqDistQ_factors (c1 c2 : RGBColor) (h : sqDistQ c1 c2 = 0) :
    ∀ z, sqDistQ z c1 = sqDistQ z c2 := by
  have hz : distanceSq c1 c2 = 0 := by
    unfold sqDistQ at h
    exact_mod_cast h
  rw [distanceSq_eq_zero hz]
  intro z
  rfl

/-- Witness for C7: determinism and idempotence at the concrete demo
catalog, squared-distance metric and empty caches. -/
theorem matchColorToDMC_deterministic_idempotent_witness :
    (matchColorToDMC demoCatalog sqDistQ ⟨1, 2, 3⟩ [] true).1 =
      (matchColorToDMC demoCatalog sqDistQ ⟨1, 2, 3⟩ [] true).1 ∧
    (matchColorToDMC demoCatalog sqDistQ demoThreadA.rgb [] true).1 =
      some demoThreadA := by
  have hvalid : MCacheValid demoCatalog sqDistQ [] := by
    intro p hp
    exact absurd hp (List.not_mem_nil p)
  have hthm := matchColorToDMC_deterministic_idempotent demoCatalog sqDistQ
    sqDistQ_self sqDistQ_nonneg sqDistQ_factors
  refine ⟨hthm.1 ⟨1, 2, 3⟩ [] [] hvalid hvalid, ?_⟩
  have hbase : (matchColorToDMC demoCatalog sqDistQ ⟨0, 0, 0⟩ [] true).1 =
      some demoThreadA := by decide
  have := hthm.2 ⟨0, 0, 0⟩ [] [] demoThreadA hvalid hvalid hbase
  simpa [demoThreadA] using this

/-- C2 counterexample: matching the color (0,0,0) against an empty
reference catalog does not fail; `matchColorToDMC` returns normally
with `none` (the JS `undefined` produced by indexing the empty
catalog at position 0).  No `InvalidArgument` error exists in the
source. -/
theorem matchColorToDMC_empty_catalog_no_error :
    (matchColorToDMC [] sqDistQ ⟨0, 0, 0⟩ [] true).1 = none := rfl

/-- C2 amended: for every color and distance function, matching
against an empty catalog raises no error: `findClosestColorIndex`
returns index 0 and the catalog lookup yields no entry (JS
`undefined`), which is returned as a normal value. -/
theorem matchColorToDMC_empty_catalog (dist : RGBColor → RGBColor → ℚ)
    (color : RGBColor) :
    (matchColorToDMC [] dist color [] true).1 = none ∧
      findClosestColorIndex color [] dist = 0 :=
  ⟨rfl, rfl⟩

/-! ## Symbol assignment (C8) -/

theorem getAllSymbols_nodup : getAllSymbols.Nodup := by decide

/-- C8: symbol assignment is positional — entry `i` receives
`symbolTable[i mod tableSize]` — and therefore palettes no longer than
the symbol table receive pairwise distinct glyphs. -/
theorem assignSymbols_positional_and_collision_free :
    (∀ palette i, i < palette.length →
      ((assignSymbolsToPalette palette).getD i default).symbol =
        getAllSymbols.getD (i % getSymbolCount) "")
    ∧ (∀ palette, palette.length ≤ getSymbolCount →
      ∀ i j, i < palette.length → j < palette.length → i ≠ j →
      ((assignSymbolsToPalette palette).getD i default).symbol ≠
        ((assignSymbolsToPalette palette).getD j default).symbol) := by
  have hlen : ∀ palette : List DMCThread,
      (assignSymbolsToPalette palette).length = palette.length := by
    intro palette
    simp [assignSymbolsToPalette]
  have hpos : ∀ (palette : List DMCThread) (i : Nat), i < palette.length →
      ((assignSymbolsToPalette palette).getD i default).symbol =
        getAllSymbols.getD (i % getSymbolCount) "" := by
    intro palette i hi
    rw [List.getD_eq_getElem _ _ (by rw [hlen palette]; exact hi)]
    unfold assignSymbolsToPalette
    rw [List.getElem_mapIdx]
    rfl
  refine ⟨hpos, ?_⟩
  intro palette hle i j hi hj hij
  rw [hpos palette i hi, hpos palette j hj]
  have hilt : i < getAllSymbols.length := lt_of_lt_of_le hi hle
  have hjlt : j < getAllSymbols.length := lt_of_lt_of_le hj hle
  rw [Nat.mod_eq_of_lt (lt_of_lt_of_le hi hle), Nat.mod_eq_of_lt (lt_of_lt_of_le hj hle)]
  rw [List.getD_eq_getElem _ _ hilt, List.getD_eq_getElem _ _ hjlt]
  intro hcontra
  exact hij ((getAllSymbols_nodup.getElem_inj_iff).mp hcontra)

/-- Witness for C8 at a concrete two-entry palette. -/
theorem assignSymbols_positional_and_collision_free_witness :
    ((assignSymbolsToPalette demoCatalog).getD 0 default).symbol =
      getAllSymbols.getD (0 % getSymbolCount) "" ∧
    ((assignSymbolsToPalette demoCatalog).getD 0 default).symbol ≠
      ((assignSymbolsToPalette demoCatalog).getD 1 default).symbol :=
  ⟨assignSymbols_positional_and_collision_free.1 demoCatalog 0 (by decide),
    assignSymbols_positional_and_collision_free.2 demoCatalog (by decide)
      0 1 (by decide) (by decide) (by decide)⟩

/-! ## Grid mapper palette lookup (patternStore.ts `mapImageToGridChunked`) -/

/-- The scanning loop of the grid mapper's `findClosestDMC`
(patternStore.ts, inside `mapImageToGridChunked`): tracks the least
squared RGB distance and the corresponding palette entry.  `none` as
the current minimum models the initial `Infinity`; the initial best
entry is `dmcPalette[0]` (`none`, i.e. `undefined`, for an empty
palette). -/
def fcdFold (color : RGBColor) :
    List DMCThread → Option Int × Option DMCThread → Option Int × Option DMCThread
  | [], s => s
  | dmc :: rest, (cur, best) =>
    match cur with
    | none => fcdFold color rest (some (distanceSq color dmc.rgb), some dmc)
    | some m =>
      if distanceSq color dmc.rgb < m then
        fcdFold color rest (some (distanceSq color dmc.rgb), some dmc)
      else fcdFold color rest (some m, best)

/-- The uncached body of the grid mapper's `findClosestDMC`. -/
def findClosestDMCCore (dmcPalette : List DMCThread) (color : RGBColor) :
    Option DMCThread :=
  (fcdFold color dmcPalette (none, dmcPalette.head?)).2

/-- The per-call `colorLookup` cache of `mapImageToGridChunked`,
scoped to one grid-mapping call. -/
abbrev GridCache : Type := List (RGBColor × Option DMCThread)

/-- `findClosestDMC` with its per-call cache: a hit returns the stored
value (JS `colorLookup.get(cacheKey)!`), a miss computes and stores. -/
def findClosestDMC (dmcPalette : List DMCThread) (color : RGBColor)
    (cache : GridCache) : Option DMCThread × GridCache :=
  match assocLookup cache color with
  | some v => (v, cache)
  | none =>
    let r := findClosestDMCCore dmcPalette color
    (r, (color, r) :: cache)

/-- Validity of the grid-mapper cache: every entry stores the result
the uncached computation would produce.  Holds for the empty cache the
call starts with and is preserved by every lookup. -/
def GridCacheValid (dmcPalette : List DMCThread) (cache : GridCache) : Prop :=
  ∀ p ∈ cache, p.2 = findClosestDMCCore dmcPalette p.1

/-- Characterization of `fcdFold` once a current minimum is present:
the result is the incoming pair or a scanned entry at its own
distance, and its distance is minimal over the scanned entries. -/
theorem fcdFold_spec (color : RGBColor) :
    ∀ (l : List DMCThread) (m : Int) (t0 : Option DMCThread),
    ∃ m' t', fcdFold color l (some m, t0) = (some m', t') ∧
      ((m' = m ∧ t' = t0) ∨
        (∃ u ∈ l, t' = some u ∧ m' = distanceSq color u.rgb ∧ m' < m)) ∧
      (∀ u ∈ l, m' ≤ distanceSq color u.rgb) := by
  intro l
  induction l with
  | nil =>
    intro m t0
    exact ⟨m, t0, rfl, Or.inl ⟨rfl, rfl⟩, by intro u hu; exact absurd hu (by simp)⟩
  | cons d rest ih =>
    intro m t0
    by_cases hd : distanceSq color d.rgb < m
    · simp only [fcdFold, hd, if_pos]
      obtain ⟨m', t', heq, hcase, hmin⟩ := ih (distanceSq color d.rgb) (some d)
      refine ⟨m', t', heq, ?_, ?_⟩
      · rcases hcase with ⟨hm, ht⟩ | ⟨u, hu, ht, hv, hlt⟩
        · exact Or.inr ⟨d, List.mem_cons_self d rest, ht, hm, hm ▸ hd⟩
        · exact Or.inr ⟨u, List.mem_cons_of_mem d hu, ht, hv, lt_trans hlt hd⟩
      · intro u hu
        rcases List.mem_cons.mp hu with rfl | hu
        · rcases hcase with ⟨hm, _⟩ | ⟨_, _, _, _, hlt⟩
          · exact le_of_eq hm
          · exact le_of_lt hlt
        · exact hmin u hu
    · simp only [fcdFold, hd, if_neg, if_false]
      obtain ⟨m', t', heq, hcase, hmin⟩ := ih m t0
      refine ⟨m', t', heq, ?_, ?_⟩
      · rcases hcase with ⟨hm, ht⟩ | ⟨u, hu, ht, hv, hlt⟩
        · exact Or.inl ⟨hm, ht⟩
        · exact Or.inr ⟨u, List.mem_cons_of_mem d hu, ht, hv, hlt⟩
      · intro u hu
        rcases List.mem_cons.mp hu with rfl | hu
        · have hm'm : m' ≤ m := by
            rcases hcase with ⟨hm, _⟩ | ⟨_, _, _, _, hlt⟩
            · exact le_of_eq hm
            · exact le_of_lt hlt
          exact le_trans hm'm (not_lt.mp hd)
        · exact hmin u hu

/-- On a nonempty palette the uncached grid-mapper lookup returns a
palette member at minimal squared RGB distance. -/
theorem findClosestDMCCore_spec (dmcPalette : List DMCThread) (color : RGBColor)
    (hne : dmcPalette ≠ []) :
    ∃ t, findClosestDMCCore dmcPalette color = some t ∧ t ∈ dmcPalette ∧
      ∀ u ∈ dmcPalette, distanceSq color t.rgb ≤ distanceSq color u.rgb := by
  match dmcPalette with
  | [] => exact absurd rfl hne
  | p :: ps =>
    obtain ⟨m', t', heq, hcase, hmin⟩ := fcdFold_spec color ps (distanceSq color p.rgb) (some p)
    have hunfold : findClosestDMCCore (p :: ps) color = t' := by
      unfold findClosestDMCCore
      simp only [List.head?, fcdFold, heq]
    have hsome : ∃ t, t' = some t ∧ t ∈ p :: ps ∧ m' = distanceSq color t.rgb := by
      rcases hcase with ⟨hm, ht⟩ | ⟨u, hu, ht, hv, _⟩
      · exact ⟨p, ht, List.mem_cons_self p ps, hm⟩
      · exact ⟨u, ht, List.mem_cons_of_mem p hu, hv⟩
    obtain ⟨t, ht', htmem, htval⟩ := hsome
    refine ⟨t, by rw [hunfold, ht'], htmem, ?_⟩
    intro u hu
    rcases List.mem_cons.mp hu with rfl | hu
    · rw [← htval]
      rcases hcase with ⟨hm, _⟩ | ⟨_, _, _, _, hlt⟩
      · exact le_of_eq hm
      · exact le_of_lt hlt
    · rw [← htval]
      exact hmin u hu

/-- C1: the grid mapper's palette lookup (`findClosestDMC` inside
`mapImageToGridChunked`) selects a palette entry minimizing squared
Euclidean RGB distance to the input color, for every input color,
every nonempty reduced palette, and every valid state of its per-call
memoization cache. -/
theorem findClosestDMC_minimizes (dmcPalette : List DMCThread) (color : RGBColor)
    (cache : GridCache) (hne : dmcPalette ≠ [])
    (hvalid : GridCacheValid dmcPalette cache) :
    ∃ t, (findClosestDMC dmcPalette color cache).1 = some t ∧ t ∈ dmcPalette ∧
      ∀ u ∈ dmcPalette, distanceSq color t.rgb ≤ distanceSq color u.rgb := by
  obtain ⟨t, hcore, hmem, hmin⟩ := findClosestDMCCore_spec dmcPalette color hne
  refine ⟨t, ?_, hmem, hmin⟩
  unfold findClosestDMC
  cases hlook : assocLookup cache color with
  | none => simpa using hcore
  | some v =>
    have := hvalid _ (assocLookup_mem hlook)
    simp only at this
    simpa [this] using hcore

/-- Witness for C1 at a concrete color, palette and the empty cache. -/
theorem findClosestDMC_minimizes_witness :
    ∃ t, (findClosestDMC demoCatalog ⟨200, 20, 50⟩ []).1 = some t ∧
      t ∈ demoCatalog ∧
      ∀ u ∈ demoCatalog, distanceSq ⟨200, 20, 50⟩ t.rgb ≤ distanceSq ⟨200, 20, 50⟩ u.rgb :=
  findClosestDMC_minimizes demoCatalog ⟨200, 20, 50⟩ [] (by decide)
    (fun p hp => absurd hp (List.not_mem_nil p))

/-! ## Recoloring pass (colorQuantization.ts `applyQuantizedColors`) -/

/-- The inner scanning loop of `applyQuantizedColors`: walks the
quantized colors keeping the least squared distance and the best
color.  `none` as the current minimum models the initial `Infinity`;
the initial best is `quantizedColors[0]` (`none` for an empty list). -/
def aqFold (color : RGBColor) :
    List RGBColor → Option Int × Option RGBColor → Option Int × Option RGBColor
  | [], s => s
  | q :: rest, (cur, best) =>
    match cur with
    | none => aqFold color rest (some (distanceSq color q), some q)
    | some m =>
      if distanceSq color q < m then
        aqFold color rest (some (distanceSq color q), some q)
      else aqFold color rest (some m, best)

/-- Nearest quantized color for one pixel of `applyQuantizedColors`. -/
def nearestQuantized (quantizedColors : List RGBColor) (color : RGBColor) :
    Option RGBColor :=
  (aqFold color quantizedColors (none, quantizedColors.head?)).2

/-- The per-call `colorCache` of `applyQuantizedColors`. -/
abbrev AQCache : Type := List (RGBColor × RGBColor)

/-- The per-pixel loop of `applyQuantizedColors`: each RGBA group is
replaced by the nearest quantized color (cache first), keeping the
alpha byte.  With an empty quantized list the JS dereferences
`undefined` and throws a `TypeError`, modelled as `.error`. -/
def applyQuantizedColorsGo (quantizedColors : List RGBColor) :
    List Pixel → AQCache → Except String (List Pixel × AQCache)
  | [], cache => .ok ([], cache)
  | p :: rest, cache =>
    match assocLookup cache ⟨p.r, p.g, p.b⟩ with
    | some c =>
      match applyQuantizedColorsGo quantizedColors rest cache with
      | .error e => .error e
      | .ok (rest', cache') => .ok (⟨c.r, c.g, c.b, p.a⟩ :: rest', cache')
    | none =>
      match nearestQuantized quantizedColors ⟨p.r, p.g, p.b⟩ with
      | none => .error "TypeError: closestColor is undefined"
      | some c =>
        match applyQuantizedColorsGo quantizedColors rest
            ((⟨p.r, p.g, p.b⟩, c) :: cache) with
        | .error e => .error e
        | .ok (rest', cache') => .ok (⟨c.r, c.g, c.b, p.a⟩ :: rest', cache')

/-- `applyQuantizedColors` (colorQuantization.ts): builds a fresh image
(the source copies the byte array before writing) whose pixels are
recolored to the nearest quantized color; the input image is left
untouched. -/
def applyQuantizedColors (imageData : Image) (quantizedColors : List RGBColor) :
    Except String Image :=
  match applyQuantizedColorsGo quantizedColors imageData.data [] with
  | .error e => .error e
  | .ok (newData, _) =>
    .ok { width := imageData.width, height := imageData.height, data := newData }

/-- The scanning loop returns the initial best or a scanned color. -/
theorem aqFold_mem (color : RGBColor) :
    ∀ (l : List RGBColor) (m : Int) (t0 : RGBColor),
    ∃ m' t', aqFold color l (some m, some t0) = (some m', some t') ∧
      (t' = t0 ∨ t' ∈ l) := by
  intro l
  induction l with
  | nil => exact fun m t0 => ⟨m, t0, rfl, Or.inl rfl⟩
  | cons q rest ih =>
    intro m t0
    by_cases hq : distanceSq color q < m
    · simp only [aqFold, hq, if_pos]
      obtain ⟨m', t', heq, hmem⟩ := ih (distanceSq color q) q
      refine ⟨m', t', heq, ?_⟩
      rcases hmem with rfl | hmem
      · exact Or.inr (List.mem_cons_self _ _)
      · exact Or.inr (List.mem_cons_of_mem _ hmem)
    · simp only [aqFold, hq, if_neg, if_false]
      obtain ⟨m', t', heq, hmem⟩ := ih m t0
      refine ⟨m', t', heq, ?_⟩
      rcases hmem with rfl | hmem
      · exact Or.inl rfl
      · exact Or.inr (List.mem_cons_of_mem _ hmem)

/-- On a nonempty quantized list the nearest-color computation returns
a member of the list. -/
theorem nearestQuantized_mem (quantizedColors : List RGBColor) (color : RGBColor)
    (hne : quantizedColors ≠ []) :
    ∃ c, nearestQuantized quantizedColors color = some c ∧ c ∈ quantizedColors := by
  match quantizedColors with
  | [] => exact absurd rfl hne
  | q :: qs =>
    obtain ⟨m', t', heq, hmem⟩ := aqFold_mem color qs (distanceSq color q) q
    refine ⟨t', ?_, ?_⟩
    · unfold nearestQuantized
      simp only [List.head?, aqFold, heq]
    · rcases hmem with rfl | hmem
      · exact List.mem_cons_self _ _
      · exact List.mem_cons_of_mem _ hmem

/-- The per-pixel loop succeeds on a nonempty quantized list,
preserves the pixel count and every alpha byte, and recolors every
pixel to a member of the quantized list. -/
theorem applyQuantizedColorsGo_spec (quantizedColors : List RGBColor)
    (hne : quantizedColors ≠ []) :
    ∀ (ps : List Pixel) (cache : AQCache), (∀ p ∈ cache, p.2 ∈ quantizedColors) →
    ∃ ps' cache', applyQuantizedColorsGo quantizedColors ps cache = .ok (ps', cache') ∧
      ps'.length = ps.length ∧
      (∀ i, i < ps.length →
        (ps'.getD i default).a = (ps.getD i default).a ∧
        (⟨(ps'.getD i default).r, (ps'.getD i default).g,
          (ps'.getD i default).b⟩ : RGBColor) ∈ quantizedColors) := by
  intro ps
  induction ps with
  | nil =>
    intro cache hcache
    exact ⟨[], cache, rfl, rfl, fun i hi => absurd hi (by simp)⟩
  | cons p rest ih =>
    intro cache hcache
    cases hlook : assocLookup cache ⟨p.r, p.g, p.b⟩ with
    | some c =>
      have hcmem : c ∈ quantizedColors := hcache _ (assocLookup_mem hlook)
      obtain ⟨rest', cache', hgo, hlen, hpt⟩ := ih cache hcache
      refine ⟨⟨c.r, c.g, c.b, p.a⟩ :: rest', cache', ?_, by simpa using hlen, ?_⟩
      · simp only [applyQuantizedColorsGo, hlook, hgo]
      · intro i hi
        match i with
        | 0 => exact ⟨rfl, by simpa using hcmem⟩
        | i + 1 =>
          have := hpt i (by simpa using Nat.lt_of_succ_lt_succ hi)
          simpa using this
    | none =>
      obtain ⟨c, hnear, hcmem⟩ := nearestQuantized_mem quantizedColors ⟨p.r, p.g, p.b⟩ hne
      have hcache' : ∀ q ∈ ((⟨p.r, p.g, p.b⟩, c) :: cache : AQCache),
          q.2 ∈ quantizedColors := by
        intro q hq
        rcases List.mem_cons.mp hq with rfl | hq
        · exact hcmem
        · exact hcache q hq
      obtain ⟨rest', cache', hgo, hlen, hpt⟩ := ih _ hcache'
      refine ⟨⟨c.r, c.g, c.b, p.a⟩ :: rest', cache', ?_, by simpa using hlen, ?_⟩
      · simp only [applyQuantizedColorsGo, hlook, hnear, hgo]
      · intro i hi
        match i with
        | 0 => exact ⟨rfl, by simpa using hcmem⟩
        | i + 1 =>
          have := hpt i (by simpa using Nat.lt_of_succ_lt_succ hi)
          simpa using this

/-- C10: for every image and nonempty quantized color list,
`applyQuantizedColors` succeeds with an image of the same dimensions
and pixel count, every pixel keeping its alpha byte and carrying an
RGB triple from the quantized list.  The embedding is a pure function
of the input image, which the source mirrors by copying the byte
array before writing (the input buffer is never mutated). -/
theorem applyQuantizedColors_spec (imageData : Image) (quantizedColors : List RGBColor)
    (hne : quantizedColors ≠ []) :
    ∃ out, applyQuantizedColors imageData quantizedColors = .ok out ∧
      out.width = imageData.width ∧ out.height = imageData.height ∧
      out.data.length = imageData.data.length ∧
      ∀ i, i < imageData.data.length →
        (out.data.getD i default).a = (imageData.data.getD i default).a ∧
        (⟨(out.data.getD i default).r, (out.data.getD i default).g,
          (out.data.getD i default).b⟩ : RGBColor) ∈ quantizedColors := by
  obtain ⟨ps', cache', hgo, hlen, hpt⟩ :=
    applyQuantizedColorsGo_spec quantizedColors hne imageData.data []
      (fun p hp => absurd hp (List.not_mem_nil p))
  exact ⟨⟨imageData.width, imageData.height, ps'⟩,
    by unfold applyQuantizedColors; rw [hgo], rfl, rfl, hlen, hpt⟩

/-- Witness for C10 at a concrete one-pixel image and one-color list. -/
theorem applyQuantizedColors_spec_witness :
    ∃ out, applyQuantizedColors ⟨1, 1, [⟨9, 9, 9, 7⟩]⟩ [⟨0, 0, 0⟩] = .ok out ∧
      out.width = 1 ∧ out.height = 1 ∧
      out.data.length = 1 ∧
      ∀ i, i < ([⟨9, 9, 9, 7⟩] : List Pixel).length →
        (out.data.getD i default).a = (([⟨9, 9, 9, 7⟩] : List Pixel).getD i default).a ∧
        (⟨(out.data.getD i default).r, (out.data.getD i default).g,
          (out.data.getD i default).b⟩ : RGBColor) ∈ [(⟨0, 0, 0⟩ : RGBColor)] :=
  applyQuantizedColors_spec ⟨1, 1, [⟨9, 9, 9, 7⟩]⟩ [⟨0, 0, 0⟩] (by decide)

/-! ## Color quantization (colorQuantization.ts, median cut) -/

/-- Stepping state of `extractPixels`: the loop `i += 4 * sampleRate`
over the flat byte array visits one pixel and then skips
`sampleRate - 1` pixels.  The third argument counts pixels still to
skip before the next one is read. -/
def extractPixelsGo : List Pixel → Nat → Nat → List RGBColor
  | [], _, _ => []
  | p :: rest, sampleRate, 0 =>
    ⟨p.r, p.g, p.b⟩ :: extractPixelsGo rest sampleRate (sampleRate - 1)
  | _ :: rest, sampleRate, skip + 1 => extractPixelsGo rest sampleRate skip

/-- `extractPixels` (colorQuantization.ts): every `sampleRate`-th RGBA
group as an RGB color, alpha dropped. -/
def extractPixels (data : List Pixel) (sampleRate : Nat) : List RGBColor :=
  extractPixelsGo data sampleRate 0

/-- One entry of the color frequency map: a distinct color and its
occurrence count. -/
structure WPixel where
  color : RGBColor
  count : Nat
  deriving DecidableEq, Inhabited

/-- One step of building the color frequency map: increment the count
of an existing entry (JS `existing.count++`, which keeps the entry's
position) or append a new entry with count 1 (JS `Map` insertion
order). -/
def bumpColor : List WPixel → RGBColor → List WPixel
  | [], p => [⟨p, 1⟩]
  | w :: rest, p =>
    if w.color = p then ⟨w.color, w.count + 1⟩ :: rest else w :: bumpColor rest p

/-- The `colorFreq` map of `quantizeColorsMedianCut` as its ordered
entry list (`weightedPixels`). -/
def buildColorFreq (pixels : List RGBColor) : List WPixel :=
  pixels.foldl bumpColor []

/-- One step of the `uniquePixels` map of the `k ≥ pixels.length`
branch: keep first-occurrence order, ignore repeats (re-`set` of an
existing key stores an identical color at the same position). -/
def insertDistinct (acc : List RGBColor) (p : RGBColor) : List RGBColor :=
  if p ∈ acc then acc else acc ++ [p]

/-- The distinct colors of a pixel list in first-occurrence order
(the `uniquePixels` map of `quantizeColorsMedianCut`). -/
def distinctColors (pixels : List RGBColor) : List RGBColor :=
  pixels.foldl insertDistinct []

/-- A median-cut box (`ColorBox` in colorQuantization.ts): a weighted
subset of the distinct colors plus its per-channel bounds. -/
structure ColorBox where
  pixels : List WPixel
  rMin : Nat
  rMax : Nat
  gMin : Nat
  gMax : Nat
  bMin : Nat
  bMax : Nat
  deriving DecidableEq, Inhabited

/-- Bounding-box volume `(rMax-rMin)*(gMax-gMin)*(bMax-bMin)`,
computed in `Int` as JS subtraction can go negative. -/
def boxVolume (box : ColorBox) : Int :=
  (((box.rMax : Int) - box.rMin) * ((box.gMax : Int) - box.gMin)) *
    ((box.bMax : Int) - box.bMin)

/-- The box-selection loop of `quantizeColorsMedianCut`: largest
volume among boxes with more than one member; `maxVolume` starts at
`-1` and `boxToSplit` at 0. -/
def pickGo : List ColorBox → Int → Nat → Nat → Nat
  | [], _, _, best => best
  | box :: rest, maxVolume, i, best =>
    if boxVolume box > maxVolume ∧ 1 < box.pixels.length then
      pickGo rest (boxVolume box) (i + 1) i
    else pickGo rest maxVolume (i + 1) best

/-- Index of the box chosen for the next split. -/
def pickBoxToSplit (boxes : List ColorBox) : Nat := pickGo boxes (-1) 0 0

/-- Split channel of a box. -/
inductive Channel where
  | r
  | g
  | b
  deriving DecidableEq

/-- Channel projection of a color. -/
def chVal : Channel → RGBColor → Nat
  | .r, c => c.r
  | .g, c => c.g
  | .b, c => c.b

/-- Longest-range channel selection of `quantizeColorsMedianCut`,
ties broken in the fixed order r, then g, then b. -/
def splitChannelOf (box : ColorBox) : Channel :=
  let rRange := (box.rMax : Int) - box.rMin
  let gRange := (box.gMax : Int) - box.gMin
  let bRange := (box.bMax : Int) - box.bMin
  if rRange ≥ gRange ∧ rRange ≥ bRange then .r
  else if gRange ≥ bRange then .g
  else .b

/-- Stable insertion used to model the JS stable ascending
`Array.prototype.sort` on the comparator
`a.color[splitChannel] - b.color[splitChannel]`. -/
def insertSorted (key : WPixel → Nat) (w : WPixel) : List WPixel → List WPixel
  | [] => [w]
  | v :: rest =>
    if key v ≤ key w then v :: insertSorted key w rest else w :: v :: rest

/-- Stable ascending sort by a channel key (the claims depend only on
its being a stable ascending sort, in particular a permutation). -/
def sortByKey (key : WPixel → Nat) (l : List WPixel) : List WPixel :=
  l.foldr (insertSorted key) []

/-- Per-channel bounds as returned by `calculateBounds`. -/
structure Bounds where
  rMin : Nat
  rMax : Nat
  gMin : Nat
  gMax : Nat
  bMin : Nat
  bMax : Nat
  deriving DecidableEq, Inhabited

/-- One fold step of `calculateBounds`: `Math.min`/`Math.max` per
channel. -/
def foldBounds (bd : Bounds) (w : WPixel) : Bounds :=
  ⟨min bd.rMin w.color.r, max bd.rMax w.color.r,
    min bd.gMin w.color.g, max bd.gMax w.color.g,
    min bd.bMin w.color.b, max bd.bMax w.color.b⟩

/-- `calculateBounds` (inside `quantizeColorsMedianCut`): default
bounds for an empty list, otherwise min/max folds started at
`rMin = 255, rMax = 0` etc. -/
def calculateBounds : List WPixel → Bounds
  | [] => ⟨0, 255, 0, 255, 0, 255⟩
  | w :: rest => (w :: rest).foldl foldBounds ⟨255, 0, 255, 0, 255, 0⟩

/-- A box with freshly recomputed bounds. -/
def mkColorBox (pixels : List WPixel) : ColorBox :=
  let bd := calculateBounds pixels
  ⟨pixels, bd.rMin, bd.rMax, bd.gMin, bd.gMax, bd.bMin, bd.bMax⟩

/-- One split of `quantizeColorsMedianCut`: sort the box's members by
the longest channel and cut at `Math.floor(length / 2)` of the
distinct-color list (the unused `medianValue` of the source is
omitted). -/
def splitBox (box : ColorBox) : ColorBox × ColorBox :=
  let sorted := sortByKey (fun w => chVal (splitChannelOf box) w.color) box.pixels
  let median := sorted.length / 2
  (mkColorBox (sorted.take median), mkColorBox (sorted.drop median))

/-- `boxes.splice(boxToSplit, 1, leftBox, rightBox)`. -/
def spliceBoxes (boxes : List ColorBox) (i : Nat) (lb rb : ColorBox) :
    List ColorBox :=
  boxes.take i ++ [lb, rb] ++ boxes.drop (i + 1)

theorem spliceBoxes_length_gt (boxes : List ColorBox) (i : Nat) (lb rb : ColorBox) :
    boxes.length < (spliceBoxes boxes i lb rb).length := by
  simp only [spliceBoxes, List.length_append, List.length_take, List.length_drop,
    List.length_cons, List.length_singleton]
  omega

/-- The box-splitting loop of `quantizeColorsMedianCut`
(`while (boxes.length < k && boxes.length < weightedPixels.length)`),
with `n` the number of distinct colors.  Breaks early when the chosen
box is not splittable. -/
def medianCutLoop (k n : Nat) (boxes : List ColorBox) : List ColorBox :=
  if _h : boxes.length < k ∧ boxes.length < n then
    if (boxes.getD (pickBoxToSplit boxes) default).pixels.length ≤ 1 then boxes
    else
      medianCutLoop k n
        (spliceBoxes boxes (pickBoxToSplit boxes)
          (splitBox (boxes.getD (pickBoxToSplit boxes) default)).1
          (splitBox (boxes.getD (pickBoxToSplit boxes) default)).2)
  else boxes
termination_by k - boxes.length
decreasing_by
  have hlen := spliceBoxes_length_gt boxes (pickBoxToSplit boxes)
    (splitBox (boxes.getD (pickBoxToSplit boxes) default)).1
    (splitBox (boxes.getD (pickBoxToSplit boxes) default)).2
  omega

/-- `Math.round(p / q)` for nonnegative integers and positive `q`:
round half up, computed as `⌊(2p + q) / (2q)⌋`. -/
def roundDiv (p q : Nat) : Nat := (2 * p + q) / (2 * q)

/-- Count-weighted average color of a box, each channel rounded. -/
def boxAverage (box : ColorBox) : RGBColor :=
  let totalWeight := (box.pixels.map (fun w => w.count)).sum
  ⟨roundDiv ((box.pixels.map (fun w => w.color.r * w.count)).sum) totalWeight,
    roundDiv ((box.pixels.map (fun w => w.color.g * w.count)).sum) totalWeight,
    roundDiv ((box.pixels.map (fun w => w.color.b * w.count)).sum) totalWeight⟩

/-- `quantizeColorsMedianCut` (colorQuantization.ts).  The
`k ≥ pixels.length` shortcut returns the distinct colors; otherwise
boxes are split from a single all-containing box (fixed initial
bounds 0–255) and each nonempty box contributes its weighted average
color. -/
def quantizeColorsMedianCut (imageData : Image) (k : Nat) (sampleRate : Nat) :
    Except String (List RGBColor) :=
  let pixels := extractPixels imageData.data sampleRate
  if pixels.length = 0 then .error "No pixels extracted from image"
  else if pixels.length ≤ k then .ok (distinctColors pixels)
  else
    let weightedPixels := buildColorFreq pixels
    let boxes := medianCutLoop k weightedPixels.length
      [⟨weightedPixels, 0, 255, 0, 255, 0, 255⟩]
    .ok ((boxes.filter (fun b => b.pixels.length ≠ 0)).map boxAverage)

/-- `quantizeColors` (colorQuantization.ts): input validation then
median cut.  The unused `maxIterations` K-means parameter is omitted;
`k ≤ 0` degenerates to `k = 0` for a natural-number `k`. -/
def quantizeColors (imageData : Image) (k : Nat) (sampleRate : Nat) :
    Except String (List RGBColor) :=
  if k = 0 then .error "k must be greater than 0"
  else if 255 < k then .error "k must be 255 or less"
  else quantizeColorsMedianCut imageData k sampleRate

/-! ## Properties of the distinct-color and frequency maps -/

theorem insertDistinct_nodup {acc : List RGBColor} (h : acc.Nodup) (p : RGBColor) :
    (insertDistinct acc p).Nodup := by
  unfold insertDistinct
  by_cases hp : p ∈ acc
  · simpa [hp] using h
  · simp only [hp, if_neg, if_false]
    simpa [List.nodup_append] using ⟨h, hp⟩

theorem foldl_insertDistinct_nodup :
    ∀ (ps : List RGBColor) (acc : List RGBColor), acc.Nodup →
    (ps.foldl insertDistinct acc).Nodup := by
  intro ps
  induction ps with
  | nil => exact fun acc h => h
  | cons p rest ih =>
    intro acc h
    exact ih _ (insertDistinct_nodup h p)

theorem distinctColors_nodup (pixels : List RGBColor) :
    (distinctColors pixels).Nodup :=
  foldl_insertDistinct_nodup pixels [] List.nodup_nil

theorem foldl_insertDistinct_length :
    ∀ (ps : List RGBColor) (acc : List RGBColor),
    (ps.foldl insertDistinct acc).length ≤ acc.length + ps.length := by
  intro ps
  induction ps with
  | nil => intro acc; simp
  | cons p rest ih =>
    intro acc
    have hstep : (insertDistinct acc p).length ≤ acc.length + 1 := by
      unfold insertDistinct
      by_cases hp : p ∈ acc <;> simp [hp]
    calc ((p :: rest).foldl insertDistinct acc).length
        = (rest.foldl insertDistinct (insertDistinct acc p)).length := rfl
      _ ≤ (insertDistinct acc p).length + rest.length := ih _
      _ ≤ acc.length + 1 + rest.length := by omega
      _ = acc.length + (p :: rest).length := by simp; omega

theorem distinctColors_length_le (pixels : List RGBColor) :
    (distinctColors pixels).length ≤ pixels.length := by
  simpa using foldl_insertDistinct_length pixels []

theorem foldl_insertDistinct_ne_nil :
    ∀ (ps : List RGBColor) (acc : List RGBColor), acc ≠ [] →
    ps.foldl insertDistinct acc ≠ [] := by
  intro ps
  induction ps with
  | nil => exact fun acc h => h
  | cons p rest ih =>
    intro acc h
    apply ih
    unfold insertDistinct
    by_cases hp : p ∈ acc
    · simpa [hp] using h
    · simp [hp]

theorem distinctColors_ne_nil {pixels : List RGBColor} (h : pixels ≠ []) :
    distinctColors pixels ≠ [] := by
  match pixels with
  | [] => exact absurd rfl h
  | p :: rest =>
    show (rest.foldl insertDistinct (insertDistinct [] p)) ≠ []
    apply foldl_insertDistinct_ne_nil
    simp [insertDistinct]

theorem bumpColor_map_color :
    ∀ (ws : List WPixel) (p : RGBColor),
    (bumpColor ws p).map WPixel.color = insertDistinct (ws.map WPixel.color) p := by
  intro ws
  induction ws with
  | nil => intro p; simp [bumpColor, insertDistinct]
  | cons w rest ih =>
    intro p
    by_cases hw : w.color = p
    · simp only [bumpColor, hw, if_pos, List.map_cons]
      have hmem : p ∈ (w :: rest).map WPixel.color := by
        simp [← hw]
      simp [insertDistinct, hmem, hw]
    · simp only [bumpColor, hw, if_neg, if_false, List.map_cons, ih]
      by_cases hp : p ∈ rest.map WPixel.color
      · have hmem : p ∈ (w :: rest).map WPixel.color := by simp [hp]
        simp [insertDistinct, hp, hmem]
      · have hmem : p ∉ (w :: rest).map WPixel.color := by
          simp only [List.map_cons, List.mem_cons]
          rintro (hc | hc)
          · exact hw hc.symm
          · exact hp hc
        have hw2 : ¬(p = w.color) := fun hc => hw hc.symm
        simp [insertDistinct, hp, hmem, hw2]

theorem foldl_bumpColor_map_color :
    ∀ (ps : List RGBColor) (ws : List WPixel),
    (ps.foldl bumpColor ws).map WPixel.color =
      ps.foldl insertDistinct (ws.map WPixel.color) := by
  intro ps
  induction ps with
  | nil => intro ws; rfl
  | cons p rest ih =>
    intro ws
    show ((rest.foldl bumpColor (bumpColor ws p)).map WPixel.color) = _
    rw [ih (bumpColor ws p), bumpColor_map_color]
    rfl

theorem buildColorFreq_map_color (pixels : List RGBColor) :
    (buildColorFreq pixels).map WPixel.color = distinctColors pixels := by
  simpa using foldl_bumpColor_map_color pixels []

theorem buildColorFreq_length (pixels : List RGBColor) :
    (buildColorFreq pixels).length = (distinctColors pixels).length := by
  rw [← buildColorFreq_map_color]
  simp

theorem buildColorFreq_ne_nil {pixels : List RGBColor} (h : pixels ≠ []) :
    buildColorFreq pixels ≠ [] := by
  intro hnil
  have := buildColorFreq_map_color pixels
  rw [hnil] at this
  exact distinctColors_ne_nil h this.symm

theorem bumpColor_count_pos :
    ∀ (ws : List WPixel) (p : RGBColor), (∀ w ∈ ws, 1 ≤ w.count) →
    ∀ w ∈ bumpColor ws p, 1 ≤ w.count := by
  intro ws
  induction ws with
  | nil =>
    intro p _ w hw
    simp only [bumpColor, List.mem_singleton] at hw
    subst hw
    exact le_refl 1
  | cons v rest ih =>
    intro p hall w hw
    by_cases hv : v.color = p
    · simp only [bumpColor, hv, if_pos] at hw
      rcases List.mem_cons.mp hw with rfl | hw
      · simp
      · exact hall w (List.mem_cons_of_mem v hw)
    · simp only [bumpColor, hv, if_neg, if_false] at hw
      rcases List.mem_cons.mp hw with rfl | hw
      · exact hall w (List.mem_cons_self _ _)
      · exact ih p (fun u hu => hall u (List.mem_cons_of_mem v hu)) w hw

theorem foldl_bumpColor_count_pos :
    ∀ (ps : List RGBColor) (ws : List WPixel), (∀ w ∈ ws, 1 ≤ w.count) →
    ∀ w ∈ ps.foldl bumpColor ws, 1 ≤ w.count := by
  intro ps
  induction ps with
  | nil => exact fun ws h => h
  | cons p rest ih =>
    intro ws h
    exact ih (bumpColor ws p) (bumpColor_count_pos ws p h)

theorem buildColorFreq_count_pos (pixels : List RGBColor) :
    ∀ w ∈ buildColorFreq pixels, 1 ≤ w.count :=
  foldl_bumpColor_count_pos pixels [] (fun w hw => absurd hw (List.not_mem_nil w))

/-! ## Properties of the stable sort and of box splitting -/

theorem insertSorted_perm (key : WPixel → Nat) (w : WPixel) :
    ∀ l : List WPixel, (insertSorted key w l).Perm (w :: l) := by
  intro l
  induction l with
  | nil => exact List.Perm.refl _
  | cons v rest ih =>
    by_cases hv : key v ≤ key w
    · simp only [insertSorted, hv, if_pos]
      exact (ih.cons v).trans (List.Perm.swap w v rest)
    · simp only [insertSorted, hv, if_neg, if_false]
      exact List.Perm.refl _

theorem sortByKey_perm (key : WPixel → Nat) :
    ∀ l : List WPixel, (sortByKey key l).Perm l := by
  intro l
  induction l with
  | nil => exact List.Perm.refl _
  | cons x rest ih =>
    show (insertSorted key x (sortByKey key rest)).Perm (x :: rest)
    exact (insertSorted_perm key x (sortByKey key rest)).trans (ih.cons x)

theorem sortByKey_length (key : WPixel → Nat) (l : List WPixel) :
    (sortByKey key l).length = l.length :=
  (sortByKey_perm key l).length_eq

theorem mkColorBox_pixels (pixels : List WPixel) :
    (mkColorBox pixels).pixels = pixels := rfl

theorem splitBox_append_perm (box : ColorBox) :
    ((splitBox box).1.pixels ++ (splitBox box).2.pixels).Perm box.pixels := by
  unfold splitBox
  rw [mkColorBox_pixels, mkColorBox_pixels, List.take_append_drop]
  exact sortByKey_perm _ box.pixels

theorem splitBox_fst_length (box : ColorBox) :
    (splitBox box).1.pixels.length = box.pixels.length / 2 := by
  unfold splitBox
  rw [mkColorBox_pixels, List.length_take, sortByKey_length]
  exact Nat.min_eq_left (Nat.div_le_self _ 2)

theorem splitBox_snd_length (box : ColorBox) :
    (splitBox box).2.pixels.length = box.pixels.length - box.pixels.length / 2 := by
  unfold splitBox
  rw [mkColorBox_pixels, List.length_drop, sortByKey_length]

theorem splitBox_pieces_ne_nil (box : ColorBox) (h : 1 < box.pixels.length) :
    (splitBox box).1.pixels ≠ [] ∧ (splitBox box).2.pixels ≠ [] := by
  constructor
  · rw [← List.length_pos_iff_ne_nil, splitBox_fst_length]
    omega
  · rw [← List.length_pos_iff_ne_nil, splitBox_snd_length]
    omega

/-! ## Bounds, volumes and box selection -/

/-- The bounds fold only shrinks minima and grows maxima. -/
theorem foldBounds_mono :
    ∀ (ps : List WPixel) (bd : Bounds),
    (ps.foldl foldBounds bd).rMin ≤ bd.rMin ∧ bd.rMax ≤ (ps.foldl foldBounds bd).rMax ∧
    (ps.foldl foldBounds bd).gMin ≤ bd.gMin ∧ bd.gMax ≤ (ps.foldl foldBounds bd).gMax ∧
    (ps.foldl foldBounds bd).bMin ≤ bd.bMin ∧ bd.bMax ≤ (ps.foldl foldBounds bd).bMax := by
  intro ps
  induction ps with
  | nil => intro bd; simp
  | cons w rest ih =>
    intro bd
    have hrec := ih (foldBounds bd w)
    have hstep : (foldBounds bd w).rMin ≤ bd.rMin ∧ bd.rMax ≤ (foldBounds bd w).rMax ∧
        (foldBounds bd w).gMin ≤ bd.gMin ∧ bd.gMax ≤ (foldBounds bd w).gMax ∧
        (foldBounds bd w).bMin ≤ bd.bMin ∧ bd.bMax ≤ (foldBounds bd w).bMax := by
      unfold foldBounds
      refine ⟨?_, ?_, ?_, ?_, ?_, ?_⟩ <;> simp
    have h1 := hrec.1
    have h2 := hrec.2.1
    have h3 := hrec.2.2.1
    have h4 := hrec.2.2.2.1
    have h5 := hrec.2.2.2.2.1
    have h6 := hrec.2.2.2.2.2
    exact ⟨le_trans h1 hstep.1, le_trans hstep.2.1 h2,
      le_trans h3 hstep.2.2.1, le_trans hstep.2.2.2.1 h4,
      le_trans h5 hstep.2.2.2.2.1, le_trans hstep.2.2.2.2.2 h6⟩

/-- The bounds fold encloses every member of the list. -/
theorem foldBounds_mem :
    ∀ (ps : List WPixel) (bd : Bounds) (w : WPixel), w ∈ ps →
    (ps.foldl foldBounds bd).rMin ≤ w.color.r ∧ w.color.r ≤ (ps.foldl foldBounds bd).rMax ∧
    (ps.foldl foldBounds bd).gMin ≤ w.color.g ∧ w.color.g ≤ (ps.foldl foldBounds bd).gMax ∧
    (ps.foldl foldBounds bd).bMin ≤ w.color.b ∧ w.color.b ≤ (ps.foldl foldBounds bd).bMax := by
  intro ps
  induction ps with
  | nil => intro bd w hw; exact absurd hw (List.not_mem_nil w)
  | cons v rest ih =>
    intro bd w hw
    rcases List.mem_cons.mp hw with rfl | hw
    · have hmono := foldBounds_mono rest (foldBounds bd w)
      have hstep : (foldBounds bd w).rMin ≤ w.color.r ∧ w.color.r ≤ (foldBounds bd w).rMax ∧
          (foldBounds bd w).gMin ≤ w.color.g ∧ w.color.g ≤ (foldBounds bd w).gMax ∧
          (foldBounds bd w).bMin ≤ w.color.b ∧ w.color.b ≤ (foldBounds bd w).bMax := by
        unfold foldBounds
        refine ⟨?_, ?_, ?_, ?_, ?_, ?_⟩ <;> simp
      exact ⟨le_trans hmono.1 hstep.1, le_trans hstep.2.1 hmono.2.1,
        le_trans hmono.2.2.1 hstep.2.2.1, le_trans hstep.2.2.2.1 hmono.2.2.2.1,
        le_trans hmono.2.2.2.2.1 hstep.2.2.2.2.1,
        le_trans hstep.2.2.2.2.2 hmono.2.2.2.2.2⟩
    · exact ih (foldBounds bd v) w hw

/-- `calculateBounds` always returns ordered per-channel bounds. -/
theorem calculateBounds_ordered (ps : List WPixel) :
    (calculateBounds ps).rMin ≤ (calculateBounds ps).rMax ∧
    (calculateBounds ps).gMin ≤ (calculateBounds ps).gMax ∧
    (calculateBounds ps).bMin ≤ (calculateBounds ps).bMax := by
  match ps with
  | [] => exact ⟨by simp [calculateBounds], by simp [calculateBounds], by simp [calculateBounds]⟩
  | w :: rest =>
    have hmem := foldBounds_mem (w :: rest) ⟨255, 0, 255, 0, 255, 0⟩ w
      (List.mem_cons_self w rest)
    exact ⟨le_trans hmem.1 hmem.2.1, le_trans hmem.2.2.1 hmem.2.2.2.1,
      le_trans hmem.2.2.2.2.1 hmem.2.2.2.2.2⟩

/-- Ordered bounds give a nonnegative volume. -/
theorem boxVolume_nonneg (box : ColorBox) (h1 : box.rMin ≤ box.rMax)
    (h2 : box.gMin ≤ box.gMax) (h3 : box.bMin ≤ box.bMax) :
    0 ≤ boxVolume box := by
  unfold boxVolume
  have hr : (0 : Int) ≤ (box.rMax : Int) - box.rMin := by
    omega
  have hg : (0 : Int) ≤ (box.gMax : Int) - box.gMin := by
    omega
  have hb : (0 : Int) ≤ (box.bMax : Int) - box.bMin := by
    omega
  exact mul_nonneg (mul_nonneg hr hg) hb

/-- The selection loop either keeps the incoming candidate or returns
an index of a scanned element. -/
theorem pickGo_range :
    ∀ (l : List ColorBox) (maxVolume : Int) (i best : Nat),
    pickGo l maxVolume i best = best ∨
      (i ≤ pickGo l maxVolume i best ∧ pickGo l maxVolume i best < i + l.length) := by
  intro l
  induction l with
  | nil => intro maxVolume i best; exact Or.inl rfl
  | cons box rest ih =>
    intro maxVolume i best
    by_cases hc : boxVolume box > maxVolume ∧ 1 < box.pixels.length
    · unfold pickGo
      rw [if_pos hc]
      rcases ih (boxVolume box) (i + 1) i with heq | ⟨hlo, hhi⟩
      · exact Or.inr ⟨by omega, by rw [heq]; simp⟩
      · exact Or.inr ⟨by omega, by simp only [List.length_cons]; omega⟩
    · unfold pickGo
      rw [if_neg hc]
      rcases ih maxVolume (i + 1) best with heq | ⟨hlo, hhi⟩
      · exact Or.inl heq
      · exact Or.inr ⟨by omega, by simp only [List.length_cons]; omega⟩

/-- On a nonempty box list the chosen split index is in range. -/
theorem pickBoxToSplit_lt {boxes : List ColorBox} (h : boxes ≠ []) :
    pickBoxToSplit boxes < boxes.length := by
  have hlen : 0 < boxes.length := List.length_pos.mpr h
  rcases pickGo_range boxes (-1) 0 0 with heq | ⟨_, hhi⟩
  · unfold pickBoxToSplit
    omega
  · unfold pickBoxToSplit
    omega

/-- The selection loop picks a splittable box whenever one exists
among the scanned elements (or the incoming candidate is already
splittable), provided volumes are nonnegative. -/
theorem pickGo_splittable :
    ∀ (l : List ColorBox) (maxVolume : Int) (i best : Nat) (boxes : List ColorBox),
    boxes.drop i = l →
    (0 ≤ maxVolume → 1 < (boxes.getD best default).pixels.length) →
    (∀ b ∈ l, 0 ≤ boxVolume b) →
    (0 ≤ maxVolume ∨ ∃ b ∈ l, 1 < b.pixels.length) →
    1 < (boxes.getD (pickGo l maxVolume i best) default).pixels.length := by
  intro l
  induction l with
  | nil =>
    intro maxVolume i best boxes _ hbest _ hcond
    rcases hcond with hge | ⟨b, hb, _⟩
    · exact hbest hge
    · exact absurd hb (List.not_mem_nil b)
  | cons box rest ih =>
    intro maxVolume i best boxes hdrop hbest hvol hcond
    have hib : boxes.getD i default = box := by
      have hh : (boxes.drop i).head? = some box := by rw [hdrop]; rfl
      rw [List.head?_drop] at hh
      have hlt : i < boxes.length := by
        by_contra hge
        rw [List.getElem?_eq_none (by omega)] at hh
        exact Option.noConfusion hh
      rw [List.getElem?_eq_getElem hlt] at hh
      rw [List.getD_eq_getElem _ _ hlt]
      exact Option.some.inj hh
    have hdrop' : boxes.drop (i + 1) = rest := by
      have h1 := List.drop_drop 1 i boxes
      rw [hdrop] at h1
      simp only [List.drop_succ_cons, List.drop_zero] at h1
      exact h1.symm
    by_cases hc : boxVolume box > maxVolume ∧ 1 < box.pixels.length
    · unfold pickGo
      rw [if_pos hc]
      apply ih (boxVolume box) (i + 1) i boxes hdrop'
      · intro _
        rw [hib]
        exact hc.2
      · intro b hb
        exact hvol b (List.mem_cons_of_mem box hb)
      · exact Or.inl (hvol box (List.mem_cons_self box rest))
    · unfold pickGo
      rw [if_neg hc]
      apply ih maxVolume (i + 1) best boxes hdrop' hbest
      · intro b hb
        exact hvol b (List.mem_cons_of_mem box hb)
      · rcases hcond with hge | ⟨b, hb, hbig⟩
        · exact Or.inl hge
        · rcases List.mem_cons.mp hb with rfl | hb
          · left
            have hle : boxVolume b ≤ maxVolume := by
              by_contra hgt
              exact hc ⟨lt_of_not_le hgt, hbig⟩
            exact le_trans (hvol b (List.mem_cons_self b rest)) hle
          · exact Or.inr ⟨b, hb, hbig⟩

/-- On a list of nonnegative-volume boxes containing a splittable box,
`pickBoxToSplit` picks a splittable box. -/
theorem pickBoxToSplit_splittable (boxes : List ColorBox)
    (hvol : ∀ b ∈ boxes, 0 ≤ boxVolume b)
    (hex : ∃ b ∈ boxes, 1 < b.pixels.length) :
    1 < (boxes.getD (pickBoxToSplit boxes) default).pixels.length := by
  unfold pickBoxToSplit
  apply pickGo_splittable boxes (-1) 0 0 boxes rfl
  · intro hge
    omega
  · exact hvol
  · exact Or.inr hex

/-! ## Counting lemmas for the loop invariant -/

theorem sum_le_length_of_all_le_one :
    ∀ ns : List Nat, (∀ x ∈ ns, x ≤ 1) → ns.sum ≤ ns.length := by
  intro ns
  induction ns with
  | nil => intro; simp
  | cons x rest ih =>
    intro h
    have hx := h x (List.mem_cons_self x rest)
    have := ih (fun y hy => h y (List.mem_cons_of_mem x hy))
    simp only [List.sum_cons, List.length_cons]
    omega

theorem length_le_sum_of_all_pos :
    ∀ ns : List Nat, (∀ x ∈ ns, 1 ≤ x) → ns.length ≤ ns.sum := by
  intro ns
  induction ns with
  | nil => intro; simp
  | cons x rest ih =>
    intro h
    have hx := h x (List.mem_cons_self x rest)
    have := ih (fun y hy => h y (List.mem_cons_of_mem x hy))
    simp only [List.sum_cons, List.length_cons]
    omega

theorem all_one_of_sum_eq_length :
    ∀ ns : List Nat, (∀ x ∈ ns, 1 ≤ x) → ns.sum = ns.length →
    ∀ x ∈ ns, x = 1 := by
  intro ns
  induction ns with
  | nil => intro _ _ x hx; exact absurd hx (List.not_mem_nil x)
  | cons y rest ih =>
    intro hpos hsum x hx
    have hy := hpos y (List.mem_cons_self y rest)
    have hrest := length_le_sum_of_all_pos rest
      (fun z hz => hpos z (List.mem_cons_of_mem y hz))
    simp only [List.sum_cons, List.length_cons] at hsum
    have hy1 : y = 1 := by omega
    have hsum' : rest.sum = rest.length := by omega
    rcases List.mem_cons.mp hx with rfl | hx
    · exact hy1
    · exact ih (fun z hz => hpos z (List.mem_cons_of_mem y hz)) hsum' x hx

/-! ## The box-splitting loop invariant -/

/-- Invariant of the box worklist: every box is nonempty with ordered
bounds, and the boxes partition the weighted distinct colors (their
member lists concatenate to a permutation of `wp`). -/
def BoxesInv (wp : List WPixel) (boxes : List ColorBox) : Prop :=
  (∀ b ∈ boxes, b.pixels ≠ []) ∧
  (∀ b ∈ boxes, b.rMin ≤ b.rMax ∧ b.gMin ≤ b.gMax ∧ b.bMin ≤ b.bMax) ∧
  ((boxes.map ColorBox.pixels).flatten).Perm wp

theorem mkColorBox_ordered (pixels : List WPixel) :
    (mkColorBox pixels).rMin ≤ (mkColorBox pixels).rMax ∧
    (mkColorBox pixels).gMin ≤ (mkColorBox pixels).gMax ∧
    (mkColorBox pixels).bMin ≤ (mkColorBox pixels).bMax :=
  calculateBounds_ordered pixels

theorem splitBox_fst_ordered (box : ColorBox) :
    (splitBox box).1.rMin ≤ (splitBox box).1.rMax ∧
    (splitBox box).1.gMin ≤ (splitBox box).1.gMax ∧
    (splitBox box).1.bMin ≤ (splitBox box).1.bMax :=
  mkColorBox_ordered _

theorem splitBox_snd_ordered (box : ColorBox) :
    (splitBox box).2.rMin ≤ (splitBox box).2.rMax ∧
    (splitBox box).2.gMin ≤ (splitBox box).2.gMax ∧
    (splitBox box).2.bMin ≤ (splitBox box).2.bMax :=
  mkColorBox_ordered _

theorem mem_spliceBoxes {boxes : List ColorBox} {i : Nat} {lb rb x : ColorBox}
    (hx : x ∈ spliceBoxes boxes i lb rb) : x = lb ∨ x = rb ∨ x ∈ boxes := by
  unfold spliceBoxes at hx
  rcases List.mem_append.mp hx with hx | hx
  · rcases List.mem_append.mp hx with hx | hx
    · exact Or.inr (Or.inr (List.take_subset i boxes hx))
    · rcases List.mem_cons.mp hx with rfl | hx
      · exact Or.inl rfl
      · obtain rfl := List.mem_singleton.mp hx
        exact Or.inr (Or.inl rfl)
  · exact Or.inr (Or.inr (List.drop_subset (i + 1) boxes hx))

theorem boxes_decomp {boxes : List ColorBox} {i : Nat} (hi : i < boxes.length) :
    boxes = boxes.take i ++ boxes.getD i default :: boxes.drop (i + 1) := by
  conv_lhs => rw [← List.take_append_drop i boxes]
  rw [List.drop_eq_getElem_cons hi, List.getD_eq_getElem _ _ hi]

/-- One split step preserves the invariant and grows the worklist by
exactly one box. -/
theorem medianCutStep_inv (wp : List WPixel) (boxes : List ColorBox) (i : Nat)
    (hi : i < boxes.length) (hinv : BoxesInv wp boxes)
    (hbig : 1 < (boxes.getD i default).pixels.length) :
    BoxesInv wp (spliceBoxes boxes i (splitBox (boxes.getD i default)).1
      (splitBox (boxes.getD i default)).2) ∧
    (spliceBoxes boxes i (splitBox (boxes.getD i default)).1
      (splitBox (boxes.getD i default)).2).length = boxes.length + 1 := by
  obtain ⟨hne, hbd, hperm⟩ := hinv
  have hpieces := splitBox_pieces_ne_nil (boxes.getD i default) hbig
  refine ⟨⟨?_, ?_, ?_⟩, ?_⟩
  · intro x hx
    rcases mem_spliceBoxes hx with rfl | rfl | hx
    · exact hpieces.1
    · exact hpieces.2
    · exact hne x hx
  · intro x hx
    rcases mem_spliceBoxes hx with rfl | rfl | hx
    · exact splitBox_fst_ordered _
    · exact splitBox_snd_ordered _
    · exact hbd x hx
  · have hsplice : ((spliceBoxes boxes i (splitBox (boxes.getD i default)).1
        (splitBox (boxes.getD i default)).2).map ColorBox.pixels).flatten =
        ((boxes.take i).map ColorBox.pixels).flatten ++
          ((splitBox (boxes.getD i default)).1.pixels ++
            (splitBox (boxes.getD i default)).2.pixels) ++
          ((boxes.drop (i + 1)).map ColorBox.pixels).flatten := by
      simp [spliceBoxes, List.flatten_append, List.append_assoc]
    have hold : ((boxes.map ColorBox.pixels).flatten) =
        ((boxes.take i).map ColorBox.pixels).flatten ++
          (boxes.getD i default).pixels ++
          ((boxes.drop (i + 1)).map ColorBox.pixels).flatten := by
      conv_lhs => rw [boxes_decomp hi]
      simp [List.flatten_append, List.append_assoc]
    rw [hsplice]
    refine List.Perm.trans ?_ (hold ▸ hperm)
    apply List.Perm.append_right
    exact List.Perm.append_left _ (splitBox_append_perm _)
  · simp only [spliceBoxes, List.length_append, List.length_take, List.length_drop,
      List.length_cons, List.length_nil]
    rw [Nat.min_eq_left (Nat.le_of_lt hi)]
    omega

/-- While the worklist is shorter than the number of distinct colors,
some box holds more than one distinct color. -/
theorem exists_splittable_box (wp : List WPixel) (boxes : List ColorBox)
    (hperm : ((boxes.map ColorBox.pixels).flatten).Perm wp)
    (hlt : boxes.length < wp.length) :
    ∃ b ∈ boxes, 1 < b.pixels.length := by
  by_contra hcon
  push_neg at hcon
  have hlen : ((boxes.map ColorBox.pixels).flatten).length = wp.length :=
    hperm.length_eq
  rw [List.length_flatten] at hlen
  have hmapmap : (boxes.map ColorBox.pixels).map List.length =
      boxes.map (fun b => b.pixels.length) := by
    rw [List.map_map]
    rfl
  have hble : (boxes.map (fun b => b.pixels.length)).sum ≤
      (boxes.map (fun b => b.pixels.length)).length := by
    apply sum_le_length_of_all_le_one
    intro x hx
    obtain ⟨b, hb, rfl⟩ := List.mem_map.mp hx
    exact hcon b hb
  rw [hmapmap] at hlen
  simp only [List.length_map] at hble
  omega

/-- Full specification of the splitting loop: under the invariant the
loop never breaks early; it preserves the invariant and stops with
exactly `max boxes.length (min k n)` boxes, where `n` is the number of
distinct colors. -/
theorem medianCutLoop_inv (k : Nat) (wp : List WPixel) :
    ∀ (fuel : Nat) (boxes : List ColorBox), k - boxes.length ≤ fuel →
    boxes ≠ [] → BoxesInv wp boxes →
    BoxesInv wp (medianCutLoop k wp.length boxes) ∧
    medianCutLoop k wp.length boxes ≠ [] ∧
    (medianCutLoop k wp.length boxes).length =
      max boxes.length (min k wp.length) := by
  intro fuel
  induction fuel with
  | zero =>
    intro boxes hfuel hne hinv
    have hcond : ¬(boxes.length < k ∧ boxes.length < wp.length) := by omega
    rw [medianCutLoop, dif_neg hcond]
    exact ⟨hinv, hne, by omega⟩
  | succ fuel ih =>
    intro boxes hfuel hne hinv
    by_cases hcond : boxes.length < k ∧ boxes.length < wp.length
    · have hex : ∃ b ∈ boxes, 1 < b.pixels.length :=
        exists_splittable_box wp boxes hinv.2.2 hcond.2
      have hvol : ∀ b ∈ boxes, 0 ≤ boxVolume b := by
        intro b hb
        obtain ⟨h1, h2, h3⟩ := hinv.2.1 b hb
        exact boxVolume_nonneg b h1 h2 h3
      have hbig := pickBoxToSplit_splittable boxes hvol hex
      have hilt := pickBoxToSplit_lt hne
      obtain ⟨hinv', hlen'⟩ := medianCutStep_inv wp boxes (pickBoxToSplit boxes)
        hilt hinv hbig
      rw [medianCutLoop, dif_pos hcond, if_neg (by omega)]
      have hne' : spliceBoxes boxes (pickBoxToSplit boxes)
          (splitBox (boxes.getD (pickBoxToSplit boxes) default)).1
          (splitBox (boxes.getD (pickBoxToSplit boxes) default)).2 ≠ [] := by
        rw [← List.length_pos_iff_ne_nil, hlen']
        omega
      obtain ⟨hinv2, hne2, hlen2⟩ := ih _ (by omega) hne' hinv'
      refine ⟨hinv2, hne2, ?_⟩
      rw [hlen2, hlen']
      omega
    · rw [medianCutLoop, dif_neg hcond]
      exact ⟨hinv, hne, by omega⟩

/-! ## From the final worklist to the output colors -/

theorem roundDiv_mul (c n : Nat) (hn : 1 ≤ n) : roundDiv (c * n) n = c := by
  unfold roundDiv
  have hnum : 2 * (c * n) + n = n * (2 * c + 1) := by ring
  have hden : 2 * n = n * 2 := by ring
  rw [hnum, hden, Nat.mul_div_mul_left _ _ hn]
  omega

/-- A singleton box averages to its only member's color. -/
theorem boxAverage_singleton (b : ColorBox) (w : WPixel) (hb : b.pixels = [w])
    (hcnt : 1 ≤ w.count) : boxAverage b = w.color := by
  cases hcw : w.color with
  | mk r g bl =>
    unfold boxAverage
    rw [hb]
    simp only [List.map_cons, List.map_nil, List.sum_cons, List.sum_nil, Nat.add_zero,
      hcw]
    simp only [roundDiv_mul _ _ hcnt]

/-- Every nonempty box passes the emptiness filter. -/
theorem filter_nonempty_boxes (boxes : List ColorBox)
    (h : ∀ b ∈ boxes, b.pixels ≠ []) :
    boxes.filter (fun b => b.pixels.length ≠ 0) = boxes := by
  apply List.filter_eq_self.mpr
  intro b hb
  have hb2 := h b hb
  simp [List.length_eq_zero, hb2]

/-- When every box is a singleton with positive count, the averages
are exactly the colors of the concatenated members. -/
theorem map_boxAverage_of_singletons :
    ∀ boxes : List ColorBox, (∀ b ∈ boxes, ∃ w, b.pixels = [w] ∧ 1 ≤ w.count) →
    boxes.map boxAverage = ((boxes.map ColorBox.pixels).flatten).map WPixel.color := by
  intro boxes
  induction boxes with
  | nil => intro; rfl
  | cons b rest ih =>
    intro h
    obtain ⟨w, hw, hc⟩ := h b (List.mem_cons_self b rest)
    have hrec := ih (fun x hx => h x (List.mem_cons_of_mem b hx))
    simp only [List.map_cons, List.flatten_cons, List.map_append, hw,
      boxAverage_singleton b w hw hc, hrec]
    rfl

/-- C5: for every image with a nonempty (sampled) pixel population and
every valid `k` (1 ≤ k ≤ 255), `quantizeColors` succeeds and returns
between 1 and `k` colors. -/
theorem quantizeColors_length_le (imageData : Image) (k sampleRate : Nat)
    (hne : extractPixels imageData.data sampleRate ≠ [])
    (hk1 : 1 ≤ k) (hk255 : k ≤ 255) :
    ∃ cs, quantizeColors imageData k sampleRate = .ok cs ∧
      1 ≤ cs.length ∧ cs.length ≤ k := by
  unfold quantizeColors
  rw [if_neg (by omega), if_neg (by omega)]
  unfold quantizeColorsMedianCut
  rw [if_neg (by simpa [List.length_eq_zero] using hne)]
  by_cases hkp : (extractPixels imageData.data sampleRate).length ≤ k
  · rw [if_pos hkp]
    refine ⟨distinctColors (extractPixels imageData.data sampleRate), rfl, ?_, ?_⟩
    · exact List.length_pos.mpr (distinctColors_ne_nil hne)
    · exact le_trans (distinctColors_length_le _) hkp
  · rw [if_neg hkp]
    have hwpne : buildColorFreq (extractPixels imageData.data sampleRate) ≠ [] :=
      buildColorFreq_ne_nil hne
    have hinv0 : BoxesInv (buildColorFreq (extractPixels imageData.data sampleRate))
        [⟨buildColorFreq (extractPixels imageData.data sampleRate),
          0, 255, 0, 255, 0, 255⟩] := by
      refine ⟨?_, ?_, ?_⟩
      · intro b hb
        obtain rfl := List.mem_singleton.mp hb
        exact hwpne
      · intro b hb
        obtain rfl := List.mem_singleton.mp hb
        exact ⟨Nat.zero_le 255, Nat.zero_le 255, Nat.zero_le 255⟩
      · simp
    obtain ⟨hinv, hne', hlen⟩ := medianCutLoop_inv k
      (buildColorFreq (extractPixels imageData.data sampleRate)) k
      _ (by simp) (by simp) hinv0
    refine ⟨_, rfl, ?_, ?_⟩
    · rw [filter_nonempty_boxes _ hinv.1, List.length_map, hlen]
      have : 1 ≤ (buildColorFreq (extractPixels imageData.data sampleRate)).length :=
        List.length_pos.mpr hwpne
      simp only [List.length_singleton]
      omega
    · rw [filter_nonempty_boxes _ hinv.1, List.length_map, hlen]
      simp only [List.length_singleton]
      omega

/-- Witness for C5: a 2-pixel, 2-color image quantized with k = 3. -/
theorem quantizeColors_length_le_witness :
    ∃ cs, quantizeColors ⟨2, 1, [⟨1, 2, 3, 255⟩, ⟨9, 9, 9, 255⟩]⟩ 3 1 = .ok cs ∧
      1 ≤ cs.length ∧ cs.length ≤ 3 :=
  quantizeColors_length_le ⟨2, 1, [⟨1, 2, 3, 255⟩, ⟨9, 9, 9, 255⟩]⟩ 3 1
    (by decide) (by decide) (by decide)

/-- C4: for every image with a nonempty (sampled) pixel population and
every valid `k` at least the number of distinct colors present,
`quantizeColors` returns exactly the distinct colors — a permutation
of the duplicate-free distinct-color list, so each color appears
exactly once with no padding. -/
theorem quantizeColors_distinct (imageData : Image) (k sampleRate : Nat)
    (hne : extractPixels imageData.data sampleRate ≠ [])
    (hk1 : 1 ≤ k) (hk255 : k ≤ 255)
    (hkd : (distinctColors (extractPixels imageData.data sampleRate)).length ≤ k) :
    ∃ cs, quantizeColors imageData k sampleRate = .ok cs ∧
      cs.Perm (distinctColors (extractPixels imageData.data sampleRate)) ∧
      (distinctColors (extractPixels imageData.data sampleRate)).Nodup := by
  unfold quantizeColors
  rw [if_neg (by omega), if_neg (by omega)]
  unfold quantizeColorsMedianCut
  rw [if_neg (by simpa [List.length_eq_zero] using hne)]
  by_cases hkp : (extractPixels imageData.data sampleRate).length ≤ k
  · rw [if_pos hkp]
    exact ⟨_, rfl, List.Perm.refl _, distinctColors_nodup _⟩
  · rw [if_neg hkp]
    have hwpne : buildColorFreq (extractPixels imageData.data sampleRate) ≠ [] :=
      buildColorFreq_ne_nil hne
    have hNpos : 1 ≤ (buildColorFreq (extractPixels imageData.data sampleRate)).length :=
      List.length_pos.mpr hwpne
    have hNk : (buildColorFreq (extractPixels imageData.data sampleRate)).length ≤ k := by
      rw [buildColorFreq_length]
      exact hkd
    have hinv0 : BoxesInv (buildColorFreq (extractPixels imageData.data sampleRate))
        [⟨buildColorFreq (extractPixels imageData.data sampleRate),
          0, 255, 0, 255, 0, 255⟩] := by
      refine ⟨?_, ?_, ?_⟩
      · intro b hb
        obtain rfl := List.mem_singleton.mp hb
        exact hwpne
      · intro b hb
        obtain rfl := List.mem_singleton.mp hb
        exact ⟨Nat.zero_le 255, Nat.zero_le 255, Nat.zero_le 255⟩
      · simp
    obtain ⟨hinv, hne', hlen⟩ := medianCutLoop_inv k
      (buildColorFreq (extractPixels imageData.data sampleRate)) k
      _ (by simp) (by simp) hinv0
    have hlenN : (medianCutLoop k
        (buildColorFreq (extractPixels imageData.data sampleRate)).length
        [⟨buildColorFreq (extractPixels imageData.data sampleRate),
          0, 255, 0, 255, 0, 255⟩]).length =
        (buildColorFreq (extractPixels imageData.data sampleRate)).length := by
      rw [hlen]
      simp only [List.length_singleton]
      omega
    have hsumN : ((medianCutLoop k
        (buildColorFreq (extractPixels imageData.data sampleRate)).length
        [⟨buildColorFreq (extractPixels imageData.data sampleRate),
          0, 255, 0, 255, 0, 255⟩]).map (fun b => b.pixels.length)).sum =
        (buildColorFreq (extractPixels imageData.data sampleRate)).length := by
      have hjlen := hinv.2.2.length_eq
      rw [List.length_flatten, List.map_map] at hjlen
      exact hjlen
    have hall1 : ∀ b ∈ medianCutLoop k
        (buildColorFreq (extractPixels imageData.data sampleRate)).length
        [⟨buildColorFreq (extractPixels imageData.data sampleRate),
          0, 255, 0, 255, 0, 255⟩], b.pixels.length = 1 := by
      intro b hb
      have := all_one_of_sum_eq_length
        ((medianCutLoop k
          (buildColorFreq (extractPixels imageData.data sampleRate)).length
          [⟨buildColorFreq (extractPixels imageData.data sampleRate),
            0, 255, 0, 255, 0, 255⟩]).map (fun b => b.pixels.length))
        (by
          intro x hx
          obtain ⟨c, hc, rfl⟩ := List.mem_map.mp hx
          exact List.length_pos.mpr (hinv.1 c hc))
        (by rw [hsumN, List.length_map, hlenN])
        b.pixels.length (List.mem_map_of_mem _ hb)
      exact this
    have hsingle : ∀ b ∈ medianCutLoop k
        (buildColorFreq (extractPixels imageData.data sampleRate)).length
        [⟨buildColorFreq (extractPixels imageData.data sampleRate),
          0, 255, 0, 255, 0, 255⟩], ∃ w, b.pixels = [w] ∧ 1 ≤ w.count := by
      intro b hb
      obtain ⟨w, hw⟩ := List.length_eq_one.mp (hall1 b hb)
      refine ⟨w, hw, ?_⟩
      have hwmem : w ∈ ((medianCutLoop k
          (buildColorFreq (extractPixels imageData.data sampleRate)).length
          [⟨buildColorFreq (extractPixels imageData.data sampleRate),
            0, 255, 0, 255, 0, 255⟩]).map ColorBox.pixels).flatten := by
        apply List.mem_flatten.mpr
        exact ⟨b.pixels, List.mem_map_of_mem _ hb, by simp [hw]⟩
      have hwwp : w ∈ buildColorFreq (extractPixels imageData.data sampleRate) :=
        (hinv.2.2.mem_iff).mp hwmem
      exact buildColorFreq_count_pos _ w hwwp
    refine ⟨_, rfl, ?_, distinctColors_nodup _⟩
    rw [filter_nonempty_boxes _ hinv.1, map_boxAverage_of_singletons _ hsingle]
    rw [← buildColorFreq_map_color]
    exact hinv.2.2.map WPixel.color

/-- Witness for C4: a 2-pixel image with 2 distinct colors and k = 3. -/
theorem quantizeColors_distinct_witness :
    ∃ cs, quantizeColors ⟨2, 1, [⟨5, 6, 7, 255⟩, ⟨8, 8, 8, 255⟩]⟩ 3 1 = .ok cs ∧
      cs.Perm (distinctColors (extractPixels
        ([⟨5, 6, 7, 255⟩, ⟨8, 8, 8, 255⟩] : List Pixel) 1)) ∧
      (distinctColors (extractPixels
        ([⟨5, 6, 7, 255⟩, ⟨8, 8, 8, 255⟩] : List Pixel) 1)).Nodup :=
  quantizeColors_distinct ⟨2, 1, [⟨5, 6, 7, 255⟩, ⟨8, 8, 8, 255⟩]⟩ 3 1
    (by decide) (by decide) (by decide) (by decide)

/-! ## The split position (C3) -/

/-- Running scan for the weighted median: first index at which the
remaining half-total is covered by the entry's count. -/
def wmiGo : List WPixel → Nat → Nat → Nat
  | [], _, i => i
  | w :: rest, half, i =>
    if half ≤ w.count then i else wmiGo rest (half - w.count) (i + 1)

/-- Modelled from the spec: the *weighted median index* of a box's
sorted members — "the index where the cumulative occurrence counts
reach half of the box's total occurrence count".  This definition
exists only to compare the specified split position against the
code's; the source has no counterpart. -/
def weightedMedianIndex (ps : List WPixel) : Nat :=
  wmiGo ps ((ps.map (fun w => w.count)).sum / 2) 0

/-- Pixel data of the C3 counterexample image: one black pixel, one
(100,0,0) pixel and a hundred (104,0,0) pixels. -/
def cexData : List Pixel :=
  ⟨0, 0, 0, 255⟩ :: ⟨100, 0, 0, 255⟩ :: List.replicate 100 ⟨104, 0, 0, 255⟩

/-- The C3 counterexample image. -/
def cexImage : Image := ⟨102, 1, cexData⟩

/-- The initial median-cut box for the counterexample image, exactly
as `quantizeColorsMedianCut` builds it. -/
def cexBox0 : ColorBox :=
  ⟨buildColorFreq (extractPixels cexData 1), 0, 255, 0, 255, 0, 255⟩

/-- The left box of the first split of the counterexample. -/
def cexLeft : ColorBox := ⟨[⟨⟨0, 0, 0⟩, 1⟩], 0, 0, 0, 0, 0, 0⟩

/-- The right box of the first split of the counterexample. -/
def cexRight : ColorBox :=
  ⟨[⟨⟨100, 0, 0⟩, 1⟩, ⟨⟨104, 0, 0⟩, 100⟩], 100, 104, 0, 0, 0, 0⟩

/-- C3 counterexample: quantizing the counterexample image with k = 2
splits its only box at the unweighted middle of the distinct-color
list (1 of 3 members goes left), although the weighted median index of
the sorted members is 2, and accordingly returns the averages
[(0,0,0), (104,0,0)] instead of the weighted-median split's averages.
The split position the code uses is not the weighted median index. -/
theorem medianCut_split_not_weighted_median :
    quantizeColors cexImage 2 1 = .ok [⟨0, 0, 0⟩, ⟨104, 0, 0⟩] ∧
    (splitBox cexBox0).1.pixels.length = 1 ∧
    weightedMedianIndex (sortByKey
      (fun w => chVal (splitChannelOf cexBox0) w.color) cexBox0.pixels) = 2 ∧
    (splitBox cexBox0).1.pixels.length ≠ weightedMedianIndex (sortByKey
      (fun w => chVal (splitChannelOf cexBox0) w.color) cexBox0.pixels) := by
  refine ⟨?_, by decide, by decide, by decide⟩
  unfold quantizeColors
  rw [if_neg (by decide), if_neg (by decide)]
  unfold quantizeColorsMedianCut
  rw [if_neg (by decide), if_neg (by decide)]
  have hwp : (buildColorFreq (extractPixels cexImage.data 1)).length = 3 := by decide
  simp only [hwp]
  have hsplice : spliceBoxes [(⟨buildColorFreq (extractPixels cexImage.data 1),
        0, 255, 0, 255, 0, 255⟩ : ColorBox)]
      (pickBoxToSplit [⟨buildColorFreq (extractPixels cexImage.data 1),
        0, 255, 0, 255, 0, 255⟩])
      (splitBox (([(⟨buildColorFreq (extractPixels cexImage.data 1),
        0, 255, 0, 255, 0, 255⟩ : ColorBox)]).getD
        (pickBoxToSplit [⟨buildColorFreq (extractPixels cexImage.data 1),
          0, 255, 0, 255, 0, 255⟩]) default)).1
      (splitBox (([(⟨buildColorFreq (extractPixels cexImage.data 1),
        0, 255, 0, 255, 0, 255⟩ : ColorBox)]).getD
        (pickBoxToSplit [⟨buildColorFreq (extractPixels cexImage.data 1),
          0, 255, 0, 255, 0, 255⟩]) default)).2 = [cexLeft, cexRight] := by
    decide
  rw [medianCutLoop, dif_pos (by decide), if_neg (by decide), hsplice,
    medianCutLoop, dif_neg (by decide)]
  rfl

/-- C3 amended: every split of a box cuts the box's distinct-color
member list, sorted by the chosen channel, at the unweighted middle
index `⌊n/2⌋` — the occurrence counts play no role in the split
position — and the two halves together are a permutation of the box's
members. -/
theorem splitBox_unweighted_middle (box : ColorBox) :
    (splitBox box).1.pixels.length = box.pixels.length / 2 ∧
    ((splitBox box).1.pixels ++ (splitBox box).2.pixels).Perm box.pixels ∧
    (splitBox box).1.pixels =
      (sortByKey (fun w => chVal (splitChannelOf box) w.color) box.pixels).take
        (box.pixels.length / 2) := by
  refine ⟨splitBox_fst_length box, splitBox_append_perm box, ?_⟩
  unfold splitBox
  rw [mkColorBox_pixels, sortByKey_length]

/-! ## Pattern data model and the store (types/pattern.ts, patternStore.ts) -/

/-- `PatternCell` (types/pattern.ts). -/
structure PatternCell where
  x : Nat
  y : Nat
  color : DMCThread
  symbol : String
  deriving DecidableEq, Inhabited

/-- `PatternMetadata` (types/pattern.ts); the `createdAt` `Date` is
modelled as a numeric timestamp. -/
structure PatternMetadata where
  originalWidth : Nat
  originalHeight : Nat
  colorCount : Nat
  createdAt : Nat
  deriving DecidableEq, Inhabited

/-- `Pattern` (types/pattern.ts). -/
structure Pattern where
  width : Nat
  height : Nat
  cells : List (List PatternCell)
  palette : List DMCThread
  metadata : PatternMetadata
  deriving DecidableEq, Inhabited

/-- `ProcessingSettings` (types/pattern.ts). -/
structure ProcessingSettings where
  maxColors : Nat
  gridWidth : Nat
  gridHeight : Nat
  maintainAspectRatio : Bool
  colorlessMode : Bool
  deriving DecidableEq, Inhabited

/-- The Pattern invariant of the specification: every cell's palette
entry id (DMC code) appears in the pattern's palette, and the palette
length equals the metadata color count. -/
def PatternInvariant (p : Pattern) : Prop :=
  (∀ row ∈ p.cells, ∀ cell ∈ row, ∃ t ∈ p.palette, t.code = cell.color.code) ∧
  p.palette.length = p.metadata.colorCount

/-- JS `closestDMC.symbol || '?'` (both `undefined` and `""` are
falsy). -/
def symOr (s : String) : String := if s = "" then "?" else s

/-- `getOptimalSampleRate` (colorQuantization.ts). -/
def getOptimalSampleRate (width height : Nat) : Nat :=
  if width * height > 1000000 then 5
  else if width * height > 500000 then 3
  else if width * height > 250000 then 2
  else 1

/-- RGB triple of the pixel at a flat index (direct mode of
`mapImageToGridChunked`); out-of-range reads model JS `undefined`
bytes as 0. -/
def pixelColorAt (imageData : Image) (idx : Nat) : RGBColor :=
  ⟨(imageData.data.getD idx default).r, (imageData.data.getD idx default).g,
    (imageData.data.getD idx default).b⟩

/-- Area-average source color of one target cell (area-average mode of
`mapImageToGridChunked`): source rectangle from the rational scale
factors, channel sums averaged and rounded.  An empty rectangle (JS
`NaN` from `0/0`) degenerates to channel 0 here; either way the cell
still receives a palette entry. -/
def averageArea (imageData : Image) (gridWidth gridHeight x y : Nat) : RGBColor :=
  let scaleX : ℚ := (imageData.width : ℚ) / gridWidth
  let scaleY : ℚ := (imageData.height : ℚ) / gridHeight
  let srcX : Nat := (Int.floor ((x : ℚ) * scaleX)).toNat
  let srcY : Nat := (Int.floor ((y : ℚ) * scaleY)).toNat
  let srcW : Nat := (Int.ceil scaleX).toNat
  let srcH : Nat := (Int.ceil scaleY).toNat
  let xs := List.range' srcX (min (srcX + srcW) imageData.width - srcX)
  let ys := List.range' srcY (min (srcY + srcH) imageData.height - srcY)
  let ps := (ys.map (fun sy =>
    xs.map (fun sx => imageData.data.getD (sy * imageData.width + sx) default))).flatten
  ⟨roundDiv (ps.map Pixel.r).sum ps.length,
    roundDiv (ps.map Pixel.g).sum ps.length,
    roundDiv (ps.map Pixel.b).sum ps.length⟩

/-- Inner x-loop of `mapImageToGridChunked`: one row of cells, the
per-call cache threaded through.  `colorAt` is the per-cell source
color (direct pixel read or area average).  A `none` lookup result
(empty palette) models the JS `TypeError` on `closestDMC.symbol`. -/
def mapCellsX (dmcPalette : List DMCThread) (colorAt : Nat → Nat → RGBColor)
    (y : Nat) : List Nat → GridCache → Except String (List PatternCell × GridCache)
  | [], cache => .ok ([], cache)
  | x :: xs, cache =>
    match findClosestDMC dmcPalette (colorAt x y) cache with
    | (none, _) => .error "TypeError: closestDMC is undefined"
    | (some t, cache1) =>
      match mapCellsX dmcPalette colorAt y xs cache1 with
      | .error e => .error e
      | .ok (cells, cache2) => .ok (⟨x, y, t, symOr t.symbol⟩ :: cells, cache2)

/-- Outer y-loop of `mapImageToGridChunked` (the chunking of rows only
affects scheduling, not the produced grid). -/
def mapRowsY (dmcPalette : List DMCThread) (colorAt : Nat → Nat → RGBColor)
    (gridWidth : Nat) :
    List Nat → GridCache → Except String (List (List PatternCell) × GridCache)
  | [], cache => .ok ([], cache)
  | y :: ys, cache =>
    match mapCellsX dmcPalette colorAt y (List.range gridWidth) cache with
    | .error e => .error e
    | .ok (row, cache1) =>
      match mapRowsY dmcPalette colorAt gridWidth ys cache1 with
      | .error e => .error e
      | .ok (rows, cache2) => .ok (row :: rows, cache2)

/-- `mapImageToGridChunked` (patternStore.ts): direct 1:1 mode when
the image is already grid-sized, otherwise area-average mode; both
share the squared-RGB palette lookup with a cache scoped to this
call. -/
def mapImageToGridChunked (imageData : Image) (gridWidth gridHeight : Nat)
    (dmcPalette : List DMCThread) : Except String (List (List PatternCell)) :=
  if imageData.width = gridWidth ∧ imageData.height = gridHeight then
    match mapRowsY dmcPalette (fun x y => pixelColorAt imageData (y * gridWidth + x))
        gridWidth (List.range gridHeight) [] with
    | .error e => .error e
    | .ok (grid, _) => .ok grid
  else
    match mapRowsY dmcPalette (fun x y => averageArea imageData gridWidth gridHeight x y)
        gridWidth (List.range gridHeight) [] with
    | .error e => .error e
    | .ok (grid, _) => .ok grid

/-- Collapse a list of optional matches; a `none` member models the
`TypeError` the pipeline hits downstream when the matcher produced
`undefined` (empty catalog). -/
def allSome {α : Type} : List (Option α) → Except String (List α)
  | [] => .ok []
  | some x :: rest =>
    match allSome rest with
    | .error e => .error e
    | .ok xs => .ok (x :: xs)
  | none :: _ => .error "TypeError: matched thread is undefined"

/-- The pattern store state (patternStore.ts).  UI-persistence fields
(`originalFile`, `originalImageDataUrl`, `_hasHydrated`) are outside
the modelled pipeline and omitted. -/
structure StoreState where
  originalImage : Option Image
  processedImage : Option Image
  quantizedColors : List RGBColor
  settings : ProcessingSettings
  dmcPalette : List DMCThread
  pattern : Option Pattern
  isProcessing : Bool
  error : Option String
  matchCache : MCache

/-- The try-block of `generatePattern` (patternStore.ts): quantize,
match to DMC, assign symbols, recolor, resize, map to grid, and build
the `Pattern` value.  `resize` abstracts the canvas-based
`resizeToGrid` (browser interpolation, external to the source's
algorithms); `now` models `new Date()`. -/
def generatePatternPipeline (catalog : List DMCThread)
    (dist : RGBColor → RGBColor → ℚ) (resize : Image → Nat → Nat → Image)
    (now : Nat) (img : Image) (settings : ProcessingSettings) (mcache : MCache) :
    Except String (List RGBColor × List DMCThread × Image × Pattern × MCache) :=
  match quantizeColors img settings.maxColors
      (getOptimalSampleRate img.width img.height) with
  | .error e => .error e
  | .ok quantized =>
    match allSome (matchColorsToDMC catalog dist quantized mcache).1 with
    | .error e => .error e
    | .ok matched =>
      match applyQuantizedColors img quantized with
      | .error e => .error e
      | .ok processed =>
        match mapImageToGridChunked (resize processed settings.gridWidth settings.gridHeight)
            settings.gridWidth settings.gridHeight (assignSymbolsToPalette matched) with
        | .error e => .error e
        | .ok grid =>
          .ok (quantized, assignSymbolsToPalette matched, processed,
            { width := settings.gridWidth, height := settings.gridHeight,
              cells := grid, palette := assignSymbolsToPalette matched,
              metadata := { originalWidth := img.width,
                            originalHeight := img.height,
                            colorCount := (assignSymbolsToPalette matched).length,
                            createdAt := now } },
            (matchColorsToDMC catalog dist quantized mcache).2)

/-- `generatePattern` (patternStore.ts) as a state transition: no
image sets only the error; a pipeline failure stores the error reason
and clears `isProcessing` (the `catch` branch); success stores the new
pattern and intermediate results. -/
def generatePattern (catalog : List DMCThread) (dist : RGBColor → RGBColor → ℚ)
    (resize : Image → Nat → Nat → Image) (now : Nat) (st : StoreState) :
    StoreState :=
  match st.originalImage with
  | none => { st with error := some "No image loaded" }
  | some img =>
    match generatePatternPipeline catalog dist resize now img st.settings st.matchCache with
    | .error e => { st with isProcessing := false, error := some e }
    | .ok (qc, pal, processed, pat, mcache') =>
      { st with quantizedColors := qc, dmcPalette := pal,
                processedImage := some processed, pattern := some pat,
                isProcessing := false, error := none, matchCache := mcache' }

/-- Per-cell update of `removeColor` (patternStore.ts).  For a cell of
the removed color the source computes `paletteColors.findIndex(() =>
true)`, which is 0 on a nonempty palette, and indexes the new palette
there; on an empty new palette the subsequent `newColor.symbol!`
access throws, modelled as `.error`.  Other cells take their
reassigned palette entry when one with their code exists and are kept
unchanged otherwise. -/
def removeCellUpdate (nps : List DMCThread) (dmcCode : String)
    (cell : PatternCell) : Except String PatternCell :=
  if cell.color.code = dmcCode then
    match nps with
    | [] => .error "TypeError: newColor is undefined"
    | t :: _ => .ok { cell with color := t, symbol := t.symbol }
  else
    match nps.find? (fun c => c.code = cell.color.code) with
    | some updated => .ok { cell with color := updated, symbol := updated.symbol }
    | none => .ok cell

/-- `removeColor`'s cell mapping over one row. -/
def removeCellsRow (nps : List DMCThread) (dmcCode : String) :
    List PatternCell → Except String (List PatternCell)
  | [] => .ok []
  | c :: rest =>
    match removeCellUpdate nps dmcCode c with
    | .error e => .error e
    | .ok c2 =>
      match removeCellsRow nps dmcCode rest with
      | .error e => .error e
      | .ok rest2 => .ok (c2 :: rest2)

/-- `removeColor`'s cell mapping over the grid. -/
def removeCellsGrid (nps : List DMCThread) (dmcCode : String) :
    List (List PatternCell) → Except String (List (List PatternCell))
  | [] => .ok []
  | row :: rest =>
    match removeCellsRow nps dmcCode row with
    | .error e => .error e
    | .ok row2 =>
      match removeCellsGrid nps dmcCode rest with
      | .error e => .error e
      | .ok rest2 => .ok (row2 :: rest2)

/-- `removeColor` (patternStore.ts).  A thrown cell-mapping
`TypeError` propagates before `set` is called, leaving the store
unchanged. -/
def removeColor (st : StoreState) (dmcCode : String) : StoreState :=
  match st.pattern with
  | none => { st with error := some "Cannot remove the last color" }
  | some pat =>
    if st.dmcPalette.length ≤ 1 then
      { st with error := some "Cannot remove the last color" }
    else
      match removeCellsGrid
          (assignSymbolsToPalette (st.dmcPalette.filter (fun c => c.code ≠ dmcCode)))
          dmcCode pat.cells with
      | .error _ => st
      | .ok newGrid =>
        { st with
          dmcPalette :=
            assignSymbolsToPalette (st.dmcPalette.filter (fun c => c.code ≠ dmcCode)),
          pattern := some
            { pat with cells := newGrid,
                       palette := assignSymbolsToPalette
                         (st.dmcPalette.filter (fun c => c.code ≠ dmcCode)),
                       metadata := { pat.metadata with
                                     colorCount := (assignSymbolsToPalette
                                       (st.dmcPalette.filter
                                         (fun c => c.code ≠ dmcCode))).length } } }

/-- `replaceColor` (patternStore.ts): swap one palette entry (keeping
its glyph) and recolor its cells (each keeping its cell glyph);
metadata is left untouched. -/
def replaceColor (st : StoreState) (oldCode : String) (newDMC : DMCThread) :
    StoreState :=
  match st.pattern with
  | none => st
  | some pat =>
    { st with
      dmcPalette := st.dmcPalette.map (fun c =>
        if c.code = oldCode then { newDMC with symbol := c.symbol } else c),
      pattern := some
        { pat with
          cells := pat.cells.map (fun row => row.map (fun cell =>
            if cell.color.code = oldCode then
              { cell with color := { newDMC with symbol := cell.symbol } }
            else cell)),
          palette := st.dmcPalette.map (fun c =>
            if c.code = oldCode then { newDMC with symbol := c.symbol } else c) } }

/-! ## The Pattern invariant (C6) -/

/-- A successful uncached grid-mapper lookup returns a palette
member. -/
theorem findClosestDMCCore_mem {dmcPalette : List DMCThread} {color : RGBColor}
    {t : DMCThread} (h : findClosestDMCCore dmcPalette color = some t) :
    t ∈ dmcPalette := by
  match dmcPalette with
  | [] => exact Option.noConfusion h
  | p :: ps =>
    obtain ⟨t2, heq, hmem, _⟩ := findClosestDMCCore_spec (p :: ps) color (by simp)
    rw [heq] at h
    obtain rfl := Option.some.inj h
    exact hmem

/-- A successful cached grid-mapper lookup on a valid cache returns a
palette member and leaves the cache valid. -/
theorem findClosestDMC_some {dmcPalette : List DMCThread} {color : RGBColor}
    {cache cache2 : GridCache} {t : DMCThread}
    (hvalid : GridCacheValid dmcPalette cache)
    (h : findClosestDMC dmcPalette color cache = (some t, cache2)) :
    t ∈ dmcPalette ∧ GridCacheValid dmcPalette cache2 := by
  unfold findClosestDMC at h
  cases hlook : assocLookup cache color with
  | some v =>
    rw [hlook] at h
    obtain ⟨hv, hc⟩ := Prod.mk.injEq .. ▸ h
    have hcore := hvalid _ (assocLookup_mem hlook)
    simp only at hcore
    subst hc
    refine ⟨?_, hvalid⟩
    apply findClosestDMCCore_mem
    rw [← hcore, hv]
  | none =>
    rw [hlook] at h
    simp only at h
    obtain ⟨hv, hc⟩ := Prod.mk.injEq .. ▸ h
    subst hc
    refine ⟨findClosestDMCCore_mem hv, ?_⟩
    intro p hp
    rcases List.mem_cons.mp hp with rfl | hp
    · rfl
    · exact hvalid p hp

/-- The x-loop keeps the cache valid and produces only palette
colors. -/
theorem mapCellsX_spec (dmcPalette : List DMCThread)
    (colorAt : Nat → Nat → RGBColor) (y : Nat) :
    ∀ (xs : List Nat) (cache : GridCache), GridCacheValid dmcPalette cache →
    ∀ row cache2, mapCellsX dmcPalette colorAt y xs cache = .ok (row, cache2) →
    GridCacheValid dmcPalette cache2 ∧ ∀ cell ∈ row, cell.color ∈ dmcPalette := by
  intro xs
  induction xs with
  | nil =>
    intro cache hvalid row cache2 h
    simp only [mapCellsX, Except.ok.injEq, Prod.mk.injEq] at h
    obtain ⟨rfl, rfl⟩ := h
    exact ⟨hvalid, fun cell hc => absurd hc (List.not_mem_nil cell)⟩
  | cons x rest ih =>
    intro cache hvalid row cache2 h
    unfold mapCellsX at h
    cases hfc : findClosestDMC dmcPalette (colorAt x y) cache with
    | mk o cache1 =>
      rw [hfc] at h
      cases o with
      | none => exact Except.noConfusion h
      | some t =>
        obtain ⟨hmem, hvalid1⟩ := findClosestDMC_some hvalid hfc
        dsimp only at h
        cases hrec : mapCellsX dmcPalette colorAt y rest cache1 with
        | error e => rw [hrec] at h; exact Except.noConfusion h
        | ok pr =>
          obtain ⟨cells, cache3⟩ := pr
          rw [hrec] at h
          simp only [Except.ok.injEq, Prod.mk.injEq] at h
          obtain ⟨rfl, rfl⟩ := h
          obtain ⟨hvalid3, hcells⟩ := ih cache1 hvalid1 cells cache3 hrec
          refine ⟨hvalid3, ?_⟩
          intro cell hc
          rcases List.mem_cons.mp hc with rfl | hc
          · exact hmem
          · exact hcells cell hc

/-- The y-loop keeps the cache valid and produces only palette
colors. -/
theorem mapRowsY_spec (dmcPalette : List DMCThread)
    (colorAt : Nat → Nat → RGBColor) (gridWidth : Nat) :
    ∀ (ys : List Nat) (cache : GridCache), GridCacheValid dmcPalette cache →
    ∀ rows cache2, mapRowsY dmcPalette colorAt gridWidth ys cache = .ok (rows, cache2) →
    ∀ row ∈ rows, ∀ cell ∈ row, cell.color ∈ dmcPalette := by
  intro ys
  induction ys with
  | nil =>
    intro cache hvalid rows cache2 h
    simp only [mapRowsY, Except.ok.injEq, Prod.mk.injEq] at h
    obtain ⟨rfl, rfl⟩ := h
    exact fun row hr => absurd hr (List.not_mem_nil row)
  | cons y rest ih =>
    intro cache hvalid rows cache2 h
    unfold mapRowsY at h
    cases hrow : mapCellsX dmcPalette colorAt y (List.range gridWidth) cache with
    | error e => rw [hrow] at h; exact Except.noConfusion h
    | ok pr =>
      obtain ⟨row, cache1⟩ := pr
      rw [hrow] at h
      obtain ⟨hvalid1, hrowcells⟩ :=
        mapCellsX_spec dmcPalette colorAt y (List.range gridWidth) cache hvalid
          row cache1 hrow
      dsimp only at h
      cases hrec : mapRowsY dmcPalette colorAt gridWidth rest cache1 with
      | error e => rw [hrec] at h; exact Except.noConfusion h
      | ok pr2 =>
        obtain ⟨rows2, cache3⟩ := pr2
        rw [hrec] at h
        simp only [Except.ok.injEq, Prod.mk.injEq] at h
        obtain ⟨rfl, rfl⟩ := h
        intro r hr
        rcases List.mem_cons.mp hr with rfl | hr
        · exact hrowcells
        · exact ih cache1 hvalid1 rows2 cache3 hrec r hr

/-- Every successfully produced grid binds each cell to a palette
entry. -/
theorem mapImageToGridChunked_cells {imageData : Image} {gridWidth gridHeight : Nat}
    {dmcPalette : List DMCThread} {grid : List (List PatternCell)}
    (h : mapImageToGridChunked imageData gridWidth gridHeight dmcPalette = .ok grid) :
    ∀ row ∈ grid, ∀ cell ∈ row, cell.color ∈ dmcPalette := by
  have hempty : GridCacheValid dmcPalette [] :=
    fun p hp => absurd hp (List.not_mem_nil p)
  unfold mapImageToGridChunked at h
  by_cases hmode : imageData.width = gridWidth ∧ imageData.height = gridHeight
  · rw [if_pos hmode] at h
    cases hrows : mapRowsY dmcPalette
        (fun x y => pixelColorAt imageData (y * gridWidth + x)) gridWidth
        (List.range gridHeight) [] with
    | error e => rw [hrows] at h; exact Except.noConfusion h
    | ok pr =>
      obtain ⟨rows, cacheF⟩ := pr
      rw [hrows] at h
      obtain rfl := Except.ok.inj h
      exact mapRowsY_spec dmcPalette _ gridWidth (List.range gridHeight) [] hempty
        rows cacheF hrows
  · rw [if_neg hmode] at h
    cases hrows : mapRowsY dmcPalette
        (fun x y => averageArea imageData gridWidth gridHeight x y) gridWidth
        (List.range gridHeight) [] with
    | error e => rw [hrows] at h; exact Except.noConfusion h
    | ok pr =>
      obtain ⟨rows, cacheF⟩ := pr
      rw [hrows] at h
      obtain rfl := Except.ok.inj h
      exact mapRowsY_spec dmcPalette _ gridWidth (List.range gridHeight) [] hempty
        rows cacheF hrows

/-- Symbol assignment keeps every palette code: each entry reappears
with a (possibly new) glyph. -/
theorem mem_assignSymbols_code {u : DMCThread} {pal : List DMCThread}
    (hu : u ∈ pal) :
    ∃ v ∈ assignSymbolsToPalette pal, v.code = u.code := by
  obtain ⟨i, hi, rfl⟩ := List.mem_iff_getElem.mp hu
  unfold assignSymbolsToPalette
  have hlen2 : i < (pal.mapIdx fun index color =>
      { color with symbol := getAllSymbols.getD (index % getAllSymbols.length) "" }).length := by
    simpa using hi
  refine ⟨_, List.getElem_mem hlen2, ?_⟩
  rw [List.getElem_mapIdx]

/-- A successful per-cell update of `removeColor` yields a color whose
code is in the reassigned palette, provided cells of other codes can
find their entry there. -/
theorem removeCellUpdate_spec {nps : List DMCThread} {dmcCode : String}
    {cell cell2 : PatternCell} (h : removeCellUpdate nps dmcCode cell = .ok cell2)
    (hcode : cell.color.code ≠ dmcCode → ∃ u ∈ nps, u.code = cell.color.code) :
    ∃ t ∈ nps, t.code = cell2.color.code := by
  unfold removeCellUpdate at h
  by_cases hc : cell.color.code = dmcCode
  · rw [if_pos hc] at h
    cases nps with
    | nil => exact Except.noConfusion h
    | cons t rest =>
      obtain rfl := Except.ok.inj h
      exact ⟨t, List.mem_cons_self _ _, rfl⟩
  · rw [if_neg hc] at h
    cases hfind : nps.find? (fun c => c.code = cell.color.code) with
    | some updated =>
      rw [hfind] at h
      obtain rfl := Except.ok.inj h
      exact ⟨updated, List.mem_of_find?_eq_some hfind, rfl⟩
    | none =>
      rw [hfind] at h
      obtain rfl := Except.ok.inj h
      exact hcode hc

/-- Row version of `removeCellUpdate_spec`. -/
theorem removeCellsRow_spec (nps : List DMCThread) (dmcCode : String) :
    ∀ (row row2 : List PatternCell), removeCellsRow nps dmcCode row = .ok row2 →
    (∀ cell ∈ row, cell.color.code ≠ dmcCode → ∃ u ∈ nps, u.code = cell.color.code) →
    ∀ cell2 ∈ row2, ∃ t ∈ nps, t.code = cell2.color.code := by
  intro row
  induction row with
  | nil =>
    intro row2 h _ cell2 hc2
    obtain rfl := Except.ok.inj h
    exact absurd hc2 (List.not_mem_nil cell2)
  | cons c rest ih =>
    intro row2 h hcode cell2 hc2
    unfold removeCellsRow at h
    cases hupd : removeCellUpdate nps dmcCode c with
    | error e => rw [hupd] at h; exact Except.noConfusion h
    | ok c2 =>
      rw [hupd] at h
      dsimp only at h
      cases hrec : removeCellsRow nps dmcCode rest with
      | error e => rw [hrec] at h; exact Except.noConfusion h
      | ok rest2 =>
        rw [hrec] at h
        dsimp only at h
        obtain rfl := Except.ok.inj h
        rcases List.mem_cons.mp hc2 with rfl | hc2
        · exact removeCellUpdate_spec hupd (hcode c (List.mem_cons_self c rest))
        · exact ih rest2 hrec
            (fun cl hcl => hcode cl (List.mem_cons_of_mem c hcl)) cell2 hc2

/-- Grid version of `removeCellUpdate_spec`. -/
theorem removeCellsGrid_spec (nps : List DMCThread) (dmcCode : String) :
    ∀ (grid grid2 : List (List PatternCell)),
    removeCellsGrid nps dmcCode grid = .ok grid2 →
    (∀ row ∈ grid, ∀ cell ∈ row, cell.color.code ≠ dmcCode →
      ∃ u ∈ nps, u.code = cell.color.code) →
    ∀ row2 ∈ grid2, ∀ cell2 ∈ row2, ∃ t ∈ nps, t.code = cell2.color.code := by
  intro grid
  induction grid with
  | nil =>
    intro grid2 h _ row2 hr2
    obtain rfl := Except.ok.inj h
    exact absurd hr2 (List.not_mem_nil row2)
  | cons row rest ih =>
    intro grid2 h hcode row2 hr2
    unfold removeCellsGrid at h
    cases hrow : removeCellsRow nps dmcCode row with
    | error e => rw [hrow] at h; exact Except.noConfusion h
    | ok rowU =>
      rw [hrow] at h
      dsimp only at h
      cases hrec : removeCellsGrid nps dmcCode rest with
      | error e => rw [hrec] at h; exact Except.noConfusion h
      | ok rest2 =>
        rw [hrec] at h
        dsimp only at h
        obtain rfl := Except.ok.inj h
        rcases List.mem_cons.mp hr2 with rfl | hr2
        · exact removeCellsRow_spec nps dmcCode row row2 hrow
            (hcode row (List.mem_cons_self row rest))
        · exact ih rest2 hrec
            (fun r hr => hcode r (List.mem_cons_of_mem row hr)) row2 hr2

/-- C6: every Pattern produced by the generation pipeline, and every
Pattern updated by `removeColor` or `replaceColor` from an
invariant-satisfying store (whose displayed palette matches the
pattern's), satisfies the Pattern invariant: each cell's palette-entry
code appears in the pattern's palette and the palette length equals
the metadata color count. -/
theorem pattern_ops_preserve_invariant (catalog : List DMCThread)
    (dist : RGBColor → RGBColor → ℚ) (resize : Image → Nat → Nat → Image)
    (now : Nat) :
    (∀ (img : Image) (settings : ProcessingSettings) (mcache : MCache)
      (qc : List RGBColor) (pal : List DMCThread) (processed : Image)
      (pat : Pattern) (mcache2 : MCache),
      generatePatternPipeline catalog dist resize now img settings mcache =
        .ok (qc, pal, processed, pat, mcache2) → PatternInvariant pat)
    ∧ (∀ (st : StoreState) (dmcCode : String) (pat p2 : Pattern),
      st.pattern = some pat → PatternInvariant pat → pat.palette = st.dmcPalette →
      (removeColor st dmcCode).pattern = some p2 → PatternInvariant p2)
    ∧ (∀ (st : StoreState) (oldCode : String) (newDMC : DMCThread) (pat p2 : Pattern),
      st.pattern = some pat → PatternInvariant pat → pat.palette = st.dmcPalette →
      (replaceColor st oldCode newDMC).pattern = some p2 → PatternInvariant p2) := by
  refine ⟨?_, ?_, ?_⟩
  · intro img settings mcache qc pal processed pat mcache2 h
    unfold generatePatternPipeline at h
    cases hq : quantizeColors img settings.maxColors
        (getOptimalSampleRate img.width img.height) with
    | error e => rw [hq] at h; exact Except.noConfusion h
    | ok quantized =>
      rw [hq] at h
      dsimp only at h
      cases hm : allSome (matchColorsToDMC catalog dist quantized mcache).1 with
      | error e => rw [hm] at h; exact Except.noConfusion h
      | ok matched =>
        rw [hm] at h
        dsimp only at h
        cases ha : applyQuantizedColors img quantized with
        | error e => rw [ha] at h; exact Except.noConfusion h
        | ok processed2 =>
          rw [ha] at h
          dsimp only at h
          cases hg : mapImageToGridChunked
              (resize processed2 settings.gridWidth settings.gridHeight)
              settings.gridWidth settings.gridHeight
              (assignSymbolsToPalette matched) with
          | error e => rw [hg] at h; exact Except.noConfusion h
          | ok grid =>
            rw [hg] at h
            dsimp only at h
            simp only [Except.ok.injEq, Prod.mk.injEq] at h
            obtain ⟨rfl, rfl, rfl, rfl, rfl⟩ := h
            constructor
            · intro row hrow cell hcell
              exact ⟨cell.color,
                mapImageToGridChunked_cells hg row hrow cell hcell, rfl⟩
            · rfl
  · intro st dmcCode pat p2 hpat hinv hsync h
    unfold removeColor at h
    rw [hpat] at h
    dsimp only at h
    by_cases hguard : st.dmcPalette.length ≤ 1
    · rw [if_pos hguard] at h
      dsimp only at h
      obtain rfl := Option.some.inj h
      exact hinv
    · rw [if_neg hguard] at h
      cases hgrid : removeCellsGrid
          (assignSymbolsToPalette (st.dmcPalette.filter (fun c => c.code ≠ dmcCode)))
          dmcCode pat.cells with
      | error e =>
        rw [hgrid] at h
        dsimp only at h
        rw [hpat] at h
        obtain rfl := Option.some.inj h
        exact hinv
      | ok newGrid =>
        rw [hgrid] at h
        dsimp only at h
        obtain rfl := Option.some.inj h
        constructor
        · intro row2 hr2 cell2 hc2
          refine removeCellsGrid_spec _ dmcCode pat.cells newGrid hgrid
            ?_ row2 hr2 cell2 hc2
          intro row hrow cell hcell hne
          obtain ⟨t, htmem, htcode⟩ := hinv.1 row hrow cell hcell
          have htmem2 : t ∈ st.dmcPalette := hsync ▸ htmem
          have htfilter : t ∈ st.dmcPalette.filter (fun c => c.code ≠ dmcCode) := by
            apply List.mem_filter.mpr
            refine ⟨htmem2, ?_⟩
            simpa using htcode ▸ hne
          obtain ⟨v, hvmem, hvcode⟩ := mem_assignSymbols_code htfilter
          exact ⟨v, hvmem, hvcode.trans htcode⟩
        · rfl
  · intro st oldCode newDMC pat p2 hpat hinv hsync h
    unfold replaceColor at h
    rw [hpat] at h
    dsimp only at h
    obtain rfl := Option.some.inj h
    constructor
    · intro row2 hr2 cell2 hc2
      simp only [List.mem_map] at hr2
      obtain ⟨row, hrow, rfl⟩ := hr2
      simp only [List.mem_map] at hc2
      obtain ⟨cell, hcell, rfl⟩ := hc2
      obtain ⟨t, htmem, htcode⟩ := hinv.1 row hrow cell hcell
      have htmem2 : t ∈ st.dmcPalette := hsync ▸ htmem
      by_cases hc : cell.color.code = oldCode
      · rw [if_pos hc]
        refine ⟨{ newDMC with symbol := t.symbol }, ?_, rfl⟩
        apply List.mem_map.mpr
        refine ⟨t, htmem2, ?_⟩
        rw [if_pos (htcode.trans hc)]
      · rw [if_neg hc]
        refine ⟨t, ?_, htcode⟩
        apply List.mem_map.mpr
        refine ⟨t, htmem2, ?_⟩
        rw [if_neg (by rw [htcode]; exact hc)]
    · simp only [List.length_map]
      rw [← hsync]
      exact hinv.2

/-- Demo thread A with its assigned first glyph. -/
def demoThreadASym : DMCThread := { demoThreadA with symbol := "●" }

/-- Demo thread B with the second glyph. -/
def demoThreadBSym : DMCThread := { demoThreadB with symbol := "■" }

/-- Demo thread B carrying the first glyph (as after a removal or
replacement). -/
def demoThreadBDot : DMCThread := { demoThreadB with symbol := "●" }

/-- Demo settings: 5 colors, 1×1 grid. -/
def demoSettings : ProcessingSettings := ⟨5, 1, 1, true, false⟩

/-- One-pixel demo image. -/
def demoImage : Image := ⟨1, 1, [⟨0, 0, 0, 255⟩]⟩

/-- Identity stand-in for the canvas resize in witnesses. -/
def demoResize : Image → Nat → Nat → Image := fun i _ _ => i

/-- The pattern the demo pipeline run produces. -/
def demoPattern : Pattern :=
  ⟨1, 1, [[⟨0, 0, demoThreadASym, "●"⟩]], [demoThreadASym], ⟨1, 1, 1, 0⟩⟩

/-- A two-color pattern for the removal/replacement witnesses. -/
def demoPattern2 : Pattern :=
  ⟨1, 1, [[⟨0, 0, demoThreadASym, "●"⟩]], [demoThreadASym, demoThreadBSym],
    ⟨1, 1, 2, 0⟩⟩

/-- Store state holding the two-color pattern. -/
def demoState : StoreState :=
  ⟨none, none, [], demoSettings, [demoThreadASym, demoThreadBSym],
    some demoPattern2, false, none, []⟩

/-- Witness for C6: the invariant holds for a concrete pipeline run,
for the pattern after removing the first color, and for the pattern
after replacing the first color. -/
theorem pattern_ops_preserve_invariant_witness :
    PatternInvariant demoPattern ∧
    PatternInvariant ⟨1, 1, [[⟨0, 0, demoThreadBDot, "●"⟩]], [demoThreadBDot],
      ⟨1, 1, 1, 0⟩⟩ ∧
    PatternInvariant ⟨1, 1, [[⟨0, 0, demoThreadBDot, "●"⟩]],
      [demoThreadBDot, demoThreadBSym], ⟨1, 1, 2, 0⟩⟩ :=
  ⟨(pattern_ops_preserve_invariant demoCatalog sqDistQ demoResize 0).1
      demoImage demoSettings [] [⟨0, 0, 0⟩] [demoThreadASym] demoImage demoPattern
      [(⟨0, 0, 0⟩, some demoThreadA)] (by rfl),
    (pattern_ops_preserve_invariant demoCatalog sqDistQ demoResize 0).2.1
      demoState "310" demoPattern2
      ⟨1, 1, [[⟨0, 0, demoThreadBDot, "●"⟩]], [demoThreadBDot], ⟨1, 1, 1, 0⟩⟩
      rfl ⟨by decide, rfl⟩ rfl (by rfl),
    (pattern_ops_preserve_invariant demoCatalog sqDistQ demoResize 0).2.2
      demoState "310" demoThreadB demoPattern2
      ⟨1, 1, [[⟨0, 0, demoThreadBDot, "●"⟩]], [demoThreadBDot, demoThreadBSym],
        ⟨1, 1, 2, 0⟩⟩
      rfl ⟨by decide, rfl⟩ rfl (by rfl)⟩

/-- C9: when pattern generation fails — no image loaded, or any
pipeline stage returning an error — the failure reason is surfaced in
the store's `error` field and the previously stored pattern is left
unchanged. -/
theorem generatePattern_failure_preserves (catalog : List DMCThread)
    (dist : RGBColor → RGBColor → ℚ) (resize : Image → Nat → Nat → Image)
    (now : Nat) :
    (∀ st : StoreState, st.originalImage = none →
      (generatePattern catalog dist resize now st).pattern = st.pattern ∧
      (generatePattern catalog dist resize now st).error = some "No image loaded")
    ∧ (∀ (st : StoreState) (img : Image) (e : String),
      st.originalImage = some img →
      generatePatternPipeline catalog dist resize now img st.settings
        st.matchCache = .error e →
      (generatePattern catalog dist resize now st).pattern = st.pattern ∧
      (generatePattern catalog dist resize now st).error = some e) := by
  constructor
  · intro st hnone
    unfold generatePattern
    rw [hnone]
    exact ⟨rfl, rfl⟩
  · intro st img e himg hpipe
    unfold generatePattern
    rw [himg]
    dsimp only
    rw [hpipe]
    exact ⟨rfl, rfl⟩

/-- Store state whose image has no pixels, so generation fails at the
quantization stage. -/
def demoFailState : StoreState :=
  ⟨some ⟨0, 0, []⟩, none, [], demoSettings, [demoThreadASym], some demoPattern,
    false, none, []⟩

/-- Witness for C9 at a concrete failing run: the quantizer's error is
surfaced and the stored pattern is preserved. -/
theorem generatePattern_failure_preserves_witness :
    (generatePattern demoCatalog sqDistQ demoResize 0 demoFailState).pattern =
      demoFailState.pattern ∧
    (generatePattern demoCatalog sqDistQ demoResize 0 demoFailState).error =
      some "No pixels extracted from image" :=
  (generatePattern_failure_preserves demoCatalog sqDistQ demoResize 0).2
    demoFailState ⟨0, 0, []⟩ "No pixels extracted from image" rfl (by rfl)

end CrossStitch
